import Mathlib

/-!
Verification of the BGP traffic-engineering automation pipeline.

This file gives a shallow embedding, in Lean 4, of the algorithmic core of
the repository: the two MILP-based traffic-engineering optimizers
(`optimizer_CE_PE.py`, `optimizer_PE_GW.py`), the topology validator
(`build_topology.py`), the BGP adjacency resolution (`build_configs.py`) and
the orchestration pipeline (`manager.py`).  Volumes and capacities are
modelled as rationals, the `scipy.optimize.milp` calls (which solve the two
small mixed-integer programs exactly) are modelled as exact minimization over
the finite set of 0/1 assignment vectors, and Python dictionaries are
modelled as insertion-ordered association lists.
-/

/-! ## Generic list helpers -/

/-- Left fold picking the argument with the smallest `f`-value, first-minimal
wins.  This models an exact solver returning one optimal point of a finite
feasible set. -/
def pickMin {α : Type} (f : α → ℚ) (init : α) (l : List α) : α :=
  l.foldl (fun best y => if f y < f best then y else best) init

theorem pickMin_le_init {α : Type} (f : α → ℚ) (init : α) (l : List α) :
    f (pickMin f init l) ≤ f init := by
  induction l generalizing init with
  | nil => simp [pickMin]
  | cons y t ih =>
    simp only [pickMin, List.foldl_cons]
    by_cases h : f y < f init
    · simpa [pickMin, h] using le_trans (ih y) (le_of_lt h)
    · simpa [pickMin, h] using ih init

theorem pickMin_le_mem {α : Type} (f : α → ℚ) (init : α) (l : List α)
    (y : α) (hy : y ∈ l) : f (pickMin f init l) ≤ f y := by
  induction l generalizing init with
  | nil => cases hy
  | cons z t ih =>
    simp only [pickMin, List.foldl_cons]
    rcases List.mem_cons.mp hy with rfl | hmem
    · by_cases h : f y < f init
      · simpa [pickMin, h] using pickMin_le_init f y t
      · simpa [pickMin, h] using le_trans (pickMin_le_init f init t) (le_of_not_lt h)
    · by_cases h : f z < f init
      · simpa [pickMin, h] using ih z hmem
      · simpa [pickMin, h] using ih init hmem

theorem pickMin_eq_init_or_mem {α : Type} (f : α → ℚ) (init : α) (l : List α) :
    pickMin f init l = init ∨ pickMin f init l ∈ l := by
  induction l generalizing init with
  | nil => left; rfl
  | cons z t ih =>
    have hstep : pickMin f init (z :: t) = pickMin f (if f z < f init then z else init) t := rfl
    rw [hstep]
    by_cases h : f z < f init
    · rw [if_pos h]
      rcases ih z with h1 | h1
      · right; rw [h1]; exact List.mem_cons_self z t
      · right; exact List.mem_cons_of_mem z h1
    · rw [if_neg h]
      rcases ih init with h1 | h1
      · left; exact h1
      · right; exact List.mem_cons_of_mem z h1

/-! ## Ingress optimizer (`optimizer_CE_PE.py`) -/

/-- All binary assignment vectors of length `n`: the feasible set of the
binary variables `x` of either MILP. -/
def allAssignments : ℕ → List (List Bool)
  | 0 => [[]]
  | n + 1 => (allAssignments n).flatMap (fun xs => [false :: xs, true :: xs])

theorem length_of_mem_allAssignments {n : ℕ} {x : List Bool}
    (hx : x ∈ allAssignments n) : x.length = n := by
  induction n generalizing x with
  | zero => simp [allAssignments] at hx; simp [hx]
  | succ m ih =>
    simp only [allAssignments, List.mem_flatMap] at hx
    obtain ⟨xs, hxs, hmem⟩ := hx
    simp only [List.mem_cons, List.mem_singleton, List.not_mem_nil, or_false] at hmem
    rcases hmem with h | h <;> subst h <;> simp [ih hxs]

theorem replicate_false_mem_allAssignments (n : ℕ) :
    List.replicate n false ∈ allAssignments n := by
  induction n with
  | zero => simp [allAssignments]
  | succ m ih =>
    simp only [allAssignments, List.mem_flatMap]
    exact ⟨List.replicate m false, ih, by simp [List.replicate_succ]⟩

/-- Load sent to the second choice (PE2 / GW2): the sum `Σ c_i · x_i` of the
MILP formulations, with `x_i = true` meaning choice 2. -/
def loadTwo (c : List ℚ) (x : List Bool) : ℚ :=
  ((c.zip x).map (fun p => if p.2 then p.1 else 0)).sum

/-- Optimal objective value of the ingress MILP for a fixed binary vector
`x`: the smallest `t ≥ 0` with `2·Σ(c_i·x_i) − C ≤ t` and
`C − 2·Σ(c_i·x_i) ≤ t`, i.e. `|2·Σ(c_i·x_i) − C|`. -/
def imbalanceObj (c : List ℚ) (x : List Bool) : ℚ :=
  |2 * loadTwo c x - c.sum|

/-- Model of `_solve_partitioning_milp`: `scipy.optimize.milp` solves the
mixed-integer program exactly, so it is modelled as exact minimization of
the per-assignment optimal objective over all binary vectors. -/
def solve_partitioning_milp (c : List ℚ) : List Bool :=
  pickMin (imbalanceObj c) (List.replicate c.length false) (allAssignments c.length)

theorem solve_partitioning_milp_optimal (c : List ℚ) (y : List Bool)
    (hy : y ∈ allAssignments c.length) :
    imbalanceObj c (solve_partitioning_milp c) ≤ imbalanceObj c y :=
  pickMin_le_mem _ _ _ y hy

theorem solve_partitioning_milp_length (c : List ℚ) :
    (solve_partitioning_milp c).length = c.length := by
  rcases pickMin_eq_init_or_mem (imbalanceObj c) (List.replicate c.length false)
      (allAssignments c.length) with h | h
  · rw [solve_partitioning_milp, h]; simp
  · exact length_of_mem_allAssignments h

/-- Embedding of `np.where(c != 0, x + 1, 0)`: nonzero-volume cells get the
solver choice shifted to 1/2, zero-volume cells get 0. -/
def mapScelta (c : List ℚ) (x : List Bool) : List ℕ :=
  (c.zip x).map (fun p => if p.1 ≠ 0 then (if p.2 then 2 else 1) else 0)

/-- Embedding of `ottimizzazione_scelta_PE`: flatten the demand matrix in
row-major order, solve the partitioning MILP, then map the binary vector to
the 0/1/2 assignment vector. -/
def ottimizzazione_scelta_PE (matrice : List (List ℚ)) : List ℕ :=
  let c := matrice.flatten
  mapScelta c (solve_partitioning_milp c)

/-- Load carried by choice `v ∈ {1, 2}` according to an assignment vector. -/
def loadChoice (c : List ℚ) (s : List ℕ) (v : ℕ) : ℚ :=
  ((c.zip s).map (fun p => if p.2 = v then p.1 else 0)).sum

theorem mapScelta_loads (c : List ℚ) (x : List Bool) (hlen : x.length = c.length) :
    loadChoice c (mapScelta c x) 1 - loadChoice c (mapScelta c x) 2
      = c.sum - 2 * loadTwo c x := by
  induction c generalizing x with
  | nil => simp [loadChoice, mapScelta, loadTwo]
  | cons a t ih =>
    cases x with
    | nil => simp at hlen
    | cons b xt =>
      have ht : xt.length = t.length := by simpa using hlen
      have := ih xt ht
      by_cases ha : a = 0
      · subst ha
        simp only [loadChoice, mapScelta, loadTwo, List.zip_cons_cons, List.map_cons,
          List.sum_cons] at this ⊢
        cases b <;> simp_all
      · simp only [loadChoice, mapScelta, loadTwo, List.zip_cons_cons, List.map_cons,
          List.sum_cons] at this ⊢
        cases b <;> simp_all <;> linarith

theorem mapScelta_load_two (c : List ℚ) (x : List Bool) (hlen : x.length = c.length) :
    loadChoice c (mapScelta c x) 2 = loadTwo c x := by
  induction c generalizing x with
  | nil => simp [loadChoice, mapScelta, loadTwo]
  | cons a t ih =>
    cases x with
    | nil => simp at hlen
    | cons b xt =>
      have ht : xt.length = t.length := by simpa using hlen
      have := ih xt ht
      simp only [loadChoice, mapScelta, loadTwo, List.zip_cons_cons, List.map_cons,
        List.sum_cons] at this ⊢
      by_cases ha : a = 0
      · cases b <;> simp_all
      · cases b <;> simp_all

theorem mapScelta_load_one (c : List ℚ) (x : List Bool) (hlen : x.length = c.length) :
    loadChoice c (mapScelta c x) 1 = c.sum - loadTwo c x := by
  have h2 := mapScelta_load_two c x hlen
  have hd := mapScelta_loads c x hlen
  linarith

/-! ## Egress optimizer (`optimizer_PE_GW.py`) -/

/-- Optimal objective value of the egress MILP for a fixed binary vector
`x` and positive capacities: the smallest `t ≥ 0` satisfying
`Σ(c_i·x_i) ≤ cap2·t` and `Σc_i − Σ(c_i·x_i) ≤ cap1·t`. -/
def saturationObj (c : List ℚ) (cap1 cap2 : ℚ) (x : List Bool) : ℚ :=
  max (max ((c.sum - loadTwo c x) / cap1) (loadTwo c x / cap2)) 0

/-- Model of `_solve_minimax_saturation`: exact minimization of the
per-assignment optimal MILP objective over all binary vectors. -/
def solve_minimax_saturation (c : List ℚ) (cap1 cap2 : ℚ) : List Bool :=
  pickMin (saturationObj c cap1 cap2) (List.replicate c.length false) (allAssignments c.length)

theorem solve_minimax_saturation_optimal (c : List ℚ) (cap1 cap2 : ℚ) (y : List Bool)
    (hy : y ∈ allAssignments c.length) :
    saturationObj c cap1 cap2 (solve_minimax_saturation c cap1 cap2)
      ≤ saturationObj c cap1 cap2 y :=
  pickMin_le_mem _ _ _ y hy

theorem solve_minimax_saturation_length (c : List ℚ) (cap1 cap2 : ℚ) :
    (solve_minimax_saturation c cap1 cap2).length = c.length := by
  rcases pickMin_eq_init_or_mem (saturationObj c cap1 cap2) (List.replicate c.length false)
      (allAssignments c.length) with h | h
  · rw [solve_minimax_saturation, h]; simp
  · exact length_of_mem_allAssignments h

/-- Embedding of `ottimizzazione_scelta_GW`: flatten the aggregate matrix in
row-major order, solve the minimax-saturation MILP, map to 0/1/2. -/
def ottimizzazione_scelta_GW (cap1 cap2 : ℚ) (matrice : List (List ℚ)) : List ℕ :=
  let c := matrice.flatten
  mapScelta c (solve_minimax_saturation c cap1 cap2)

theorem loadTwo_nonneg (c : List ℚ) (x : List Bool) (hc : ∀ v ∈ c, 0 ≤ v) :
    0 ≤ loadTwo c x := by
  induction c generalizing x with
  | nil => simp [loadTwo]
  | cons a t ih =>
    cases x with
    | nil => simp [loadTwo]
    | cons b xt =>
      have h0 : 0 ≤ a := hc a (by simp)
      have ht : ∀ v ∈ t, 0 ≤ v := fun v hv => hc v (by simp [hv])
      have := ih xt ht
      simp only [loadTwo, List.zip_cons_cons, List.map_cons, List.sum_cons] at this ⊢
      cases b <;> simp_all
      exact add_nonneg h0 (ih xt)

theorem mapScelta_getD (c : List ℚ) (x : List Bool) (i : ℕ)
    (hlen : x.length = c.length) (hi : i < c.length) :
    (mapScelta c x).getD i 0
      = if c.getD i 0 ≠ 0 then (if x.getD i false then 2 else 1) else 0 := by
  induction c generalizing x i with
  | nil => simp at hi
  | cons a t ih =>
    cases x with
    | nil => simp at hlen
    | cons b xt =>
      have ht : xt.length = t.length := by simpa using hlen
      cases i with
      | zero => simp [mapScelta]
      | succ k =>
        have hk : k < t.length := by simpa using hi
        simpa [mapScelta] using ih xt k ht hk

/-- C1: for every non-negative demand matrix, the assignment returned by
`ottimizzazione_scelta_PE` achieves the minimum absolute load difference
between PE1 and PE2 over all 0/1 partitions of the cell volumes; for
volumes `[100, 100]` one flow lands on each PE with imbalance 0, and for
`[300]` the imbalance is 300. -/
theorem ingress_optimizer_minimizes_imbalance :
    (∀ (matrice : List (List ℚ)), (∀ row ∈ matrice, ∀ v ∈ row, 0 ≤ v) →
      ∀ y ∈ allAssignments matrice.flatten.length,
        |loadChoice matrice.flatten (ottimizzazione_scelta_PE matrice) 1 -
          loadChoice matrice.flatten (ottimizzazione_scelta_PE matrice) 2|
          ≤ imbalanceObj matrice.flatten y)
    ∧ |loadChoice [100, 100] (ottimizzazione_scelta_PE [[100, 100]]) 1 -
        loadChoice [100, 100] (ottimizzazione_scelta_PE [[100, 100]]) 2| = 0
    ∧ (ottimizzazione_scelta_PE [[100, 100]]).count 1 = 1
    ∧ (ottimizzazione_scelta_PE [[100, 100]]).count 2 = 1
    ∧ |loadChoice [300] (ottimizzazione_scelta_PE [[300]]) 1 -
        loadChoice [300] (ottimizzazione_scelta_PE [[300]]) 2| = 300 := by
  refine ⟨?_, ?_, ?_, ?_, ?_⟩
  · intro matrice _ y hy
    set c := matrice.flatten with hc
    have hlen := solve_partitioning_milp_length c
    have h1 := mapScelta_load_one c (solve_partitioning_milp c) hlen
    have h2 := mapScelta_load_two c (solve_partitioning_milp c) hlen
    have heq : ottimizzazione_scelta_PE matrice = mapScelta c (solve_partitioning_milp c) := rfl
    rw [heq, h1, h2]
    have : |c.sum - loadTwo c (solve_partitioning_milp c) - loadTwo c (solve_partitioning_milp c)|
        = imbalanceObj c (solve_partitioning_milp c) := by
      rw [imbalanceObj, abs_sub_comm]
      ring_nf
    rw [this]
    exact solve_partitioning_milp_optimal c y hy
  · norm_num [ottimizzazione_scelta_PE, mapScelta, solve_partitioning_milp, pickMin,
      allAssignments, imbalanceObj, loadTwo, loadChoice, List.flatMap, List.replicate]
  · have heval : ottimizzazione_scelta_PE [[100, 100]] = [2, 1] := by
      norm_num [ottimizzazione_scelta_PE, mapScelta, solve_partitioning_milp, pickMin,
        allAssignments, imbalanceObj, loadTwo, List.flatMap, List.replicate]
    rw [heval]; decide
  · have heval : ottimizzazione_scelta_PE [[100, 100]] = [2, 1] := by
      norm_num [ottimizzazione_scelta_PE, mapScelta, solve_partitioning_milp, pickMin,
        allAssignments, imbalanceObj, loadTwo, List.flatMap, List.replicate]
    rw [heval]; decide
  · norm_num [ottimizzazione_scelta_PE, mapScelta, solve_partitioning_milp, pickMin,
      allAssignments, imbalanceObj, loadTwo, loadChoice, List.flatMap, List.replicate]

theorem ingress_optimizer_minimizes_imbalance_witness :
    |loadChoice [1, 2] (ottimizzazione_scelta_PE [[1, 2]]) 1 -
      loadChoice [1, 2] (ottimizzazione_scelta_PE [[1, 2]]) 2|
      ≤ imbalanceObj [1, 2] [false, false] := by
  have h := ingress_optimizer_minimizes_imbalance.1 [[1, 2]] (by norm_num) [false, false]
    (by decide)
  simpa using h

/-- C2: for every non-negative aggregate matrix and positive capacities, the
assignment returned by `ottimizzazione_scelta_GW` minimizes the worst-case
fractional saturation `max(load_GW1/cap1, load_GW2/cap2)` over all 0/1
assignments; for loads `[800, 200]` with `cap1 = 1000`, `cap2 = 500` it
sends 800 to GW1 and 200 to GW2 with worst-case saturation `0.8`. -/
theorem egress_optimizer_minimizes_saturation :
    (∀ (matrice : List (List ℚ)) (cap1 cap2 : ℚ), (∀ row ∈ matrice, ∀ v ∈ row, 0 ≤ v) →
      0 < cap1 → 0 < cap2 →
      ∀ y ∈ allAssignments matrice.flatten.length,
        max (loadChoice matrice.flatten (ottimizzazione_scelta_GW cap1 cap2 matrice) 1 / cap1)
            (loadChoice matrice.flatten (ottimizzazione_scelta_GW cap1 cap2 matrice) 2 / cap2)
          ≤ max ((matrice.flatten.sum - loadTwo matrice.flatten y) / cap1)
              (loadTwo matrice.flatten y / cap2))
    ∧ ottimizzazione_scelta_GW 1000 500 [[800, 200]] = [1, 2]
    ∧ max (loadChoice [800, 200] (ottimizzazione_scelta_GW 1000 500 [[800, 200]]) 1 / 1000)
          (loadChoice [800, 200] (ottimizzazione_scelta_GW 1000 500 [[800, 200]]) 2 / 500)
        = 4 / 5 := by
  refine ⟨?_, ?_, ?_⟩
  · intro matrice cap1 cap2 hnn _ hcap2 y hy
    set c := matrice.flatten with hc
    have hnnflat : ∀ v ∈ c, 0 ≤ v := by
      intro v hv
      rw [hc, List.mem_flatten] at hv
      obtain ⟨row, hrow, hvr⟩ := hv
      exact hnn row hrow v hvr
    have hlen := solve_minimax_saturation_length c cap1 cap2
    have h1 := mapScelta_load_one c (solve_minimax_saturation c cap1 cap2) hlen
    have h2 := mapScelta_load_two c (solve_minimax_saturation c cap1 cap2) hlen
    have heq : ottimizzazione_scelta_GW cap1 cap2 matrice
        = mapScelta c (solve_minimax_saturation c cap1 cap2) := rfl
    rw [heq, h1, h2]
    have hstep1 : max ((c.sum - loadTwo c (solve_minimax_saturation c cap1 cap2)) / cap1)
        (loadTwo c (solve_minimax_saturation c cap1 cap2) / cap2)
        ≤ saturationObj c cap1 cap2 (solve_minimax_saturation c cap1 cap2) :=
      le_max_left _ _
    have hstep2 := solve_minimax_saturation_optimal c cap1 cap2 y hy
    have hstep3 : saturationObj c cap1 cap2 y
        = max ((c.sum - loadTwo c y) / cap1) (loadTwo c y / cap2) := by
      rw [saturationObj]
      have : (0:ℚ) ≤ loadTwo c y / cap2 :=
        div_nonneg (loadTwo_nonneg c y hnnflat) (le_of_lt hcap2)
      exact max_eq_left (le_trans this (le_max_right _ _))
    calc max ((c.sum - loadTwo c (solve_minimax_saturation c cap1 cap2)) / cap1)
          (loadTwo c (solve_minimax_saturation c cap1 cap2) / cap2)
        ≤ saturationObj c cap1 cap2 (solve_minimax_saturation c cap1 cap2) := hstep1
      _ ≤ saturationObj c cap1 cap2 y := hstep2
      _ = max ((c.sum - loadTwo c y) / cap1) (loadTwo c y / cap2) := hstep3
  · norm_num [ottimizzazione_scelta_GW, mapScelta, solve_minimax_saturation, pickMin,
      allAssignments, saturationObj, loadTwo, List.flatMap, List.replicate]
  · norm_num [ottimizzazione_scelta_GW, mapScelta, solve_minimax_saturation, pickMin,
      allAssignments, saturationObj, loadTwo, loadChoice, List.flatMap, List.replicate]

theorem egress_optimizer_minimizes_saturation_witness :
    max (loadChoice [800, 200] (ottimizzazione_scelta_GW 1000 500 [[800, 200]]) 1 / 1000)
        (loadChoice [800, 200] (ottimizzazione_scelta_GW 1000 500 [[800, 200]]) 2 / 500)
      ≤ max (((800:ℚ) + 200 - loadTwo [800, 200] [true, false]) / 1000)
          (loadTwo [800, 200] [true, false] / 500) := by
  have h := egress_optimizer_minimizes_saturation.1 [[800, 200]] 1000 500
    (by norm_num) (by norm_num) (by norm_num) [true, false] (by decide)
  simpa using h

/-- C6: every zero-volume cell is assigned 0 by both optimizers, and every
nonzero-volume cell is assigned a value in 1 or 2. -/
theorem zero_volume_cells_unassigned :
    ∀ (matrice : List (List ℚ)) (cap1 cap2 : ℚ) (i : ℕ), i < matrice.flatten.length →
      (matrice.flatten.getD i 0 = 0 →
        (ottimizzazione_scelta_PE matrice).getD i 0 = 0 ∧
        (ottimizzazione_scelta_GW cap1 cap2 matrice).getD i 0 = 0) ∧
      (matrice.flatten.getD i 0 ≠ 0 →
        ((ottimizzazione_scelta_PE matrice).getD i 0 = 1 ∨
          (ottimizzazione_scelta_PE matrice).getD i 0 = 2) ∧
        ((ottimizzazione_scelta_GW cap1 cap2 matrice).getD i 0 = 1 ∨
          (ottimizzazione_scelta_GW cap1 cap2 matrice).getD i 0 = 2)) := by
  intro matrice cap1 cap2 i hi
  set c := matrice.flatten with hc
  have hpe : (ottimizzazione_scelta_PE matrice).getD i 0
      = if c.getD i 0 ≠ 0 then (if (solve_partitioning_milp c).getD i false then 2 else 1) else 0 :=
    mapScelta_getD c _ i (solve_partitioning_milp_length c) hi
  have hgw : (ottimizzazione_scelta_GW cap1 cap2 matrice).getD i 0
      = if c.getD i 0 ≠ 0 then
          (if (solve_minimax_saturation c cap1 cap2).getD i false then 2 else 1) else 0 :=
    mapScelta_getD c _ i (solve_minimax_saturation_length c cap1 cap2) hi
  constructor
  · intro h0
    rw [hpe, hgw, if_neg (by simpa using h0), if_neg (by simpa using h0)]
    exact ⟨rfl, rfl⟩
  · intro hne
    rw [hpe, hgw, if_pos hne, if_pos hne]
    constructor
    · by_cases hb : (solve_partitioning_milp c).getD i false = true
      · right; rw [if_pos hb]
      · left; rw [if_neg hb]
    · by_cases hb : (solve_minimax_saturation c cap1 cap2).getD i false = true
      · right; rw [if_pos hb]
      · left; rw [if_neg hb]

theorem zero_volume_cells_unassigned_witness :
    (ottimizzazione_scelta_PE [[(0:ℚ), 5]]).getD 0 0 = 0 ∧
    ((ottimizzazione_scelta_PE [[(0:ℚ), 5]]).getD 1 0 = 1 ∨
      (ottimizzazione_scelta_PE [[(0:ℚ), 5]]).getD 1 0 = 2) := by
  have h0 := (zero_volume_cells_unassigned [[0, 5]] 10 10 0 (by norm_num)).1
    (by norm_num)
  have h1 := (zero_volume_cells_unassigned [[0, 5]] 10 10 1 (by norm_num)).2
    (by norm_num)
  exact ⟨h0.1, h1.1⟩

/-! ## Topology data model (`data.yaml` documents) -/

/-- An IPv4 address as its four dotted-quad octet fields. -/
abbrev Octets := ℕ × ℕ × ℕ × ℕ

/-- An interface entry of a node: `name`, optional `ipv4_address`, optional
`ipv4_mask` (the mask string `/n` is carried as the number `n`). -/
structure NetIface where
  name : String
  ipv4Address : Option Octets
  ipv4Mask : Option ℕ
deriving DecidableEq

/-- A node entry: `name`, optional `role`, optional `kind`, optional
`bgp.asn`, optional `interfaces` list. -/
structure NetNode where
  name : String
  role : Option String
  kind : Option String
  bgp : Option ℕ
  interfaces : Option (List NetIface)
deriving DecidableEq

/-- A link entry: endpoint node names `a`, `b` and port names. -/
structure NetLink where
  a : String
  aPort : String
  b : String
  bPort : String
deriving DecidableEq

/-! ## Adjacency resolution (`build_configs.py`) -/

inductive SessionType where
  | ibgp
  | ebgp
deriving DecidableEq

/-- One entry of `neighbors_dict`. -/
structure NeighborEntry where
  ip : Octets
  remoteAs : ℕ
  stype : SessionType
  description : String
deriving DecidableEq

/-- The neighbors dictionary, keyed by neighbor IP: a Python dict modelled
as an insertion-ordered association list. -/
abbrev NDict := List (Octets × NeighborEntry)

/-- Python dict assignment `d[k] = v`: update the value in place if the key
exists, else append the pair. -/
def insertAssoc {α β : Type} [DecidableEq α] : List (α × β) → α → β → List (α × β)
  | [], k, v => [(k, v)]
  | e :: rest, k, v => if e.1 = k then (k, v) :: rest else e :: insertAssoc rest k v

theorem mem_insertAssoc {α β : Type} [DecidableEq α] (d : List (α × β)) (k : α) (v : β)
    (e : α × β) (he : e ∈ insertAssoc d k v) : e ∈ d ∨ e = (k, v) := by
  induction d with
  | nil => simpa [insertAssoc] using he
  | cons hd tl ih =>
    by_cases hk : hd.1 = k
    · simp only [insertAssoc, if_pos hk] at he
      rcases List.mem_cons.mp he with h | h
      · right; exact h
      · left; exact List.mem_cons_of_mem hd h
    · simp only [insertAssoc, if_neg hk] at he
      rcases List.mem_cons.mp he with h | h
      · left; rw [h]; exact List.mem_cons_self hd tl
      · rcases ih h with h1 | h1
        · left; exact List.mem_cons_of_mem hd h1
        · right; exact h1

theorem self_mem_insertAssoc {α β : Type} [DecidableEq α] (d : List (α × β)) (k : α) (v : β) :
    (k, v) ∈ insertAssoc d k v := by
  induction d with
  | nil => simp [insertAssoc]
  | cons hd tl ih =>
    by_cases hk : hd.1 = k
    · simp [insertAssoc, if_pos hk]
    · simp only [insertAssoc, if_neg hk]
      exact List.mem_cons_of_mem hd ih

theorem mem_insertAssoc_of_ne {α β : Type} [DecidableEq α] (d : List (α × β)) (k : α) (v : β)
    (e : α × β) (he : e ∈ d) (hne : e.1 ≠ k) : e ∈ insertAssoc d k v := by
  induction d with
  | nil => cases he
  | cons hd tl ih =>
    by_cases hk : hd.1 = k
    · simp only [insertAssoc, if_pos hk]
      rcases List.mem_cons.mp he with h | h
      · exact absurd (h ▸ hk) hne
      · exact List.mem_cons_of_mem _ h
    · simp only [insertAssoc, if_neg hk]
      rcases List.mem_cons.mp he with h | h
      · rw [h]; exact List.mem_cons_self hd _
      · exact List.mem_cons_of_mem hd (ih h)

/-- Embedding of `nodes_map = {n['name']: n for n in nodes}` followed by
`.get(name)`: a Python dict comprehension keeps the last node for a
repeated name. -/
def nodesMap (nodes : List NetNode) (nm : String) : Option NetNode :=
  nodes.foldl (fun acc n => if n.name = nm then some n else acc) none

/-- Embedding of `get_remote_ip`: look the node up, scan its interfaces for
the first one with the given name, and return its optional address; `None`
when the node, the interface list, the interface, or the address is
missing. -/
def get_remote_ip (nodes : List NetNode) (nodeName portName : String) : Option Octets :=
  match nodesMap nodes nodeName with
  | some node =>
    match node.interfaces with
    | some ifaces =>
      match ifaces.find? (fun i => i.name = portName) with
      | some i => i.ipv4Address
      | none => none
    | none => none
  | none => none

/-- The remote endpoint of a link as seen from `hostname` (the outer
neighbor-scan branch on `link['a'] == hostname` / `link['b'] == hostname`). -/
def remoteOfLink (l : NetLink) (hostname : String) : Option (String × String) :=
  if l.a = hostname then some (l.b, l.bPort)
  else if l.b = hostname then some (l.a, l.aPort)
  else none

/-- The endpoint of a link opposite to a bridge node, as in the inner bridge
scan; `("", "")` when the link does not touch the bridge, matching the
Python initialization `p_name, p_port = "", ""`. -/
def otherEndOfBridge (l : NetLink) (bridgeName : String) : String × String :=
  if l.a = bridgeName then (l.b, l.bPort)
  else if l.b = bridgeName then (l.a, l.aPort)
  else ("", "")

/-- The canonical dictionary value inserted by the bridge scan for a peer
with interface address `ip` on the shared segment. -/
def bridgeEntry (asn : ℕ) (bridgeName : String) (ip : Octets) : NeighborEntry :=
  ⟨ip, asn, SessionType.ibgp, "iBGP_via_" ++ bridgeName⟩

/-- One iteration of the inner bridge loop of the neighbor scan. -/
def bridgeInnerStep (nodes : List NetNode) (hostname : String) (localAsn : ℕ)
    (bridgeName : String) (d : NDict) (l : NetLink) : NDict :=
  let p := otherEndOfBridge l bridgeName
  if p.1 ≠ "" ∧ p.1 ≠ hostname then
    match nodesMap nodes p.1 with
    | some pNode =>
      match pNode.bgp with
      | some pAsn =>
        if pAsn = localAsn then
          match get_remote_ip nodes p.1 p.2 with
          | some pIp => insertAssoc d pIp (bridgeEntry localAsn bridgeName pIp)
          | none => d
        else d
      | none => d
    | none => d
  else d

/-- One iteration of the outer neighbor-scan loop: direct peering when the
remote node carries `bgp`, then the bridge-mediated scan when its role or
kind is `bridge`. -/
def neighborStep (nodes : List NetNode) (links : List NetLink) (hostname : String)
    (localAsn : ℕ) (d : NDict) (link : NetLink) : NDict :=
  match remoteOfLink link hostname with
  | none => d
  | some rp =>
    match nodesMap nodes rp.1 with
    | none => d
    | some rnode =>
      let d1 :=
        match rnode.bgp with
        | some rasn =>
          match get_remote_ip nodes rp.1 rp.2 with
          | some rip =>
            insertAssoc d rip
              ⟨rip, rasn, if rasn = localAsn then SessionType.ibgp else SessionType.ebgp,
                "Link_to_" ++ rp.1⟩
          | none => d
        | none => d
      if rnode.role = some "bridge" ∨ rnode.kind = some "bridge" then
        links.foldl (bridgeInnerStep nodes hostname localAsn rp.1) d1
      else d1

/-- The full neighbor dictionary computed for one node of the config loop
(`local_asn` is truthy only when `bgp` is present and the ASN nonzero). -/
def neighborsOf (nodes : List NetNode) (links : List NetLink) (hostname : String) : NDict :=
  match nodesMap nodes hostname with
  | some node =>
    match node.bgp with
    | some asn => if asn ≠ 0 then links.foldl (neighborStep nodes links hostname asn) [] else []
    | none => []
  | none => []

/-- The contribution of the inner bridge scan alone, starting from an empty
dictionary. -/
def bridgeScan (nodes : List NetNode) (links : List NetLink) (hostname : String)
    (localAsn : ℕ) (bridgeName : String) : NDict :=
  links.foldl (bridgeInnerStep nodes hostname localAsn bridgeName) []

/-- A link endpoint qualifies as a bridge-mediated iBGP peer of `hostname`:
it is the opposite end of a link touching the bridge, nonempty, not the
originating node, resolves to a node carrying `bgp` with the local ASN, and
its interface on the shared segment has address `ip`. -/
def bridgePeerQualifies (nodes : List NetNode) (hostname : String) (asn : ℕ)
    (bridgeName : String) (l : NetLink) (ip : Octets) : Prop :=
  (otherEndOfBridge l bridgeName).1 ≠ "" ∧
  (otherEndOfBridge l bridgeName).1 ≠ hostname ∧
  (nodesMap nodes (otherEndOfBridge l bridgeName).1).map NetNode.bgp = some (some asn) ∧
  get_remote_ip nodes (otherEndOfBridge l bridgeName).1 (otherEndOfBridge l bridgeName).2
    = some ip

instance (nodes : List NetNode) (hostname : String) (asn : ℕ)
    (bridgeName : String) (l : NetLink) (ip : Octets) :
    Decidable (bridgePeerQualifies nodes hostname asn bridgeName l ip) := by
  unfold bridgePeerQualifies
  infer_instance

theorem bridgeInnerStep_mem (nodes : List NetNode) (hostname : String) (asn : ℕ)
    (br : String) (d : NDict) (l : NetLink) (e : Octets × NeighborEntry)
    (he : e ∈ bridgeInnerStep nodes hostname asn br d l) :
    e ∈ d ∨ (bridgePeerQualifies nodes hostname asn br l e.1 ∧
      e.2 = bridgeEntry asn br e.1) := by
  simp only [bridgeInnerStep] at he
  by_cases hguard : (otherEndOfBridge l br).1 ≠ "" ∧ (otherEndOfBridge l br).1 ≠ hostname
  · rw [if_pos hguard] at he
    cases hmap : nodesMap nodes (otherEndOfBridge l br).1 with
    | none => simp only [hmap] at he; exact Or.inl he
    | some pNode =>
      simp only [hmap] at he
      cases hbgp : pNode.bgp with
      | none => simp only [hbgp] at he; exact Or.inl he
      | some pAsn =>
        simp only [hbgp] at he
        by_cases hasn : pAsn = asn
        · rw [if_pos hasn] at he
          cases hip : get_remote_ip nodes (otherEndOfBridge l br).1 (otherEndOfBridge l br).2 with
          | none => simp only [hip] at he; exact Or.inl he
          | some pIp =>
            simp only [hip] at he
            rcases mem_insertAssoc d pIp _ e he with h | h
            · exact Or.inl h
            · right
              have h1 : e.1 = pIp := by rw [h]
              have h2 : e.2 = bridgeEntry asn br pIp := by rw [h]
              refine ⟨⟨hguard.1, hguard.2, ?_, ?_⟩, ?_⟩
              · rw [hmap]; simp [hbgp, hasn]
              · rw [h1]; exact hip
              · rw [h2, h1]
        · rw [if_neg hasn] at he; exact Or.inl he
  · rw [if_neg hguard] at he; exact Or.inl he

theorem bridgeInnerStep_preserves (nodes : List NetNode) (hostname : String) (asn : ℕ)
    (br : String) (d : NDict) (l : NetLink) (ip : Octets)
    (h : (ip, bridgeEntry asn br ip) ∈ d) :
    (ip, bridgeEntry asn br ip) ∈ bridgeInnerStep nodes hostname asn br d l := by
  simp only [bridgeInnerStep]
  by_cases hguard : (otherEndOfBridge l br).1 ≠ "" ∧ (otherEndOfBridge l br).1 ≠ hostname
  · rw [if_pos hguard]
    cases hmap : nodesMap nodes (otherEndOfBridge l br).1 with
    | none => exact h
    | some pNode =>
      simp only []
      cases hbgp : pNode.bgp with
      | none => exact h
      | some pAsn =>
        simp only []
        by_cases hasn : pAsn = asn
        · rw [if_pos hasn]
          cases hip : get_remote_ip nodes (otherEndOfBridge l br).1 (otherEndOfBridge l br).2 with
          | none => exact h
          | some pIp =>
            simp only []
            by_cases hkey : pIp = ip
            · subst hkey
              exact self_mem_insertAssoc d pIp (bridgeEntry asn br pIp)
            · exact mem_insertAssoc_of_ne d pIp _ _ h (fun hc => hkey (hc.symm))
        · rw [if_neg hasn]; exact h
  · rw [if_neg hguard]; exact h

theorem bridgeInnerStep_inserts (nodes : List NetNode) (hostname : String) (asn : ℕ)
    (br : String) (d : NDict) (l : NetLink) (ip : Octets)
    (hq : bridgePeerQualifies nodes hostname asn br l ip) :
    (ip, bridgeEntry asn br ip) ∈ bridgeInnerStep nodes hostname asn br d l := by
  obtain ⟨h1, h2, hmapbgp, hip⟩ := hq
  rw [Option.map_eq_some'] at hmapbgp
  obtain ⟨pNode, hmap, hbgp⟩ := hmapbgp
  simp only [bridgeInnerStep, if_pos (And.intro h1 h2), hmap, hbgp, hip]
  simp only [if_true, eq_self_iff_true]
  exact self_mem_insertAssoc d ip (bridgeEntry asn br ip)

theorem bridgeFold_preserves (nodes : List NetNode) (hostname : String) (asn : ℕ)
    (br : String) (L : List NetLink) (d : NDict) (ip : Octets)
    (h : (ip, bridgeEntry asn br ip) ∈ d) :
    (ip, bridgeEntry asn br ip) ∈ L.foldl (bridgeInnerStep nodes hostname asn br) d := by
  induction L generalizing d with
  | nil => exact h
  | cons hd tl ih =>
    simp only [List.foldl_cons]
    exact ih _ (bridgeInnerStep_preserves nodes hostname asn br d hd ip h)

theorem bridgeFold_mem (nodes : List NetNode) (hostname : String) (asn : ℕ)
    (br : String) (L : List NetLink) (d : NDict) (e : Octets × NeighborEntry)
    (he : e ∈ L.foldl (bridgeInnerStep nodes hostname asn br) d) :
    e ∈ d ∨ ∃ l ∈ L, bridgePeerQualifies nodes hostname asn br l e.1 ∧
      e.2 = bridgeEntry asn br e.1 := by
  induction L generalizing d with
  | nil => exact Or.inl he
  | cons hd tl ih =>
    simp only [List.foldl_cons] at he
    rcases ih _ he with h | h
    · rcases bridgeInnerStep_mem nodes hostname asn br d hd e h with h1 | h1
      · exact Or.inl h1
      · exact Or.inr ⟨hd, List.mem_cons_self _ _, h1⟩
    · obtain ⟨l, hl, hql⟩ := h
      exact Or.inr ⟨l, List.mem_cons_of_mem _ hl, hql⟩

theorem bridgeFold_complete (nodes : List NetNode) (hostname : String) (asn : ℕ)
    (br : String) (L : List NetLink) (d : NDict) (l : NetLink) (hl : l ∈ L) (ip : Octets)
    (hq : bridgePeerQualifies nodes hostname asn br l ip) :
    (ip, bridgeEntry asn br ip) ∈ L.foldl (bridgeInnerStep nodes hostname asn br) d := by
  induction L generalizing d with
  | nil => cases hl
  | cons hd tl ih =>
    simp only [List.foldl_cons]
    rcases List.mem_cons.mp hl with rfl | hmem
    · exact bridgeFold_preserves nodes hostname asn br tl _ ip
        (bridgeInnerStep_inserts nodes hostname asn br d l ip hq)
    · exact ih _ hmem

/-- C7: the bridge-mediated scan emits an `ibgp` edge exactly for the other
endpoint nodes of the bridge's links that carry `bgp` with the local ASN,
keyed by that peer's interface address on the shared segment; the
originating node is excluded, so a node is never emitted as its own
neighbor. -/
theorem bridge_ibgp_exact_peers :
    ∀ (nodes : List NetNode) (links : List NetLink) (hostname : String) (asn : ℕ)
      (bridgeName : String),
      (∀ e ∈ bridgeScan nodes links hostname asn bridgeName,
        ∃ l ∈ links, bridgePeerQualifies nodes hostname asn bridgeName l e.1 ∧
          e.2 = bridgeEntry asn bridgeName e.1)
      ∧ (∀ l ∈ links, ∀ ip, bridgePeerQualifies nodes hostname asn bridgeName l ip →
          (ip, bridgeEntry asn bridgeName ip) ∈ bridgeScan nodes links hostname asn bridgeName) := by
  intro nodes links hostname asn br
  constructor
  · intro e he
    rcases bridgeFold_mem nodes hostname asn br links [] e he with h | h
    · cases h
    · exact h
  · intro l hl ip hq
    exact bridgeFold_complete nodes hostname asn br links [] l hl ip hq

/-- Concrete three-node topology for the bridge-peering witness: `pe1` and
`gw1` share ASN 65020 across bridge `br1`. -/
def exNodesBr : List NetNode :=
  [⟨"pe1", some "pe", none, some 65020, some [⟨"eth1", some (10, 0, 5, 1), some 24⟩]⟩,
   ⟨"gw1", some "gw", none, some 65020, some [⟨"eth1", some (10, 0, 5, 2), some 24⟩]⟩,
   ⟨"br1", some "bridge", some "bridge", none, none⟩]

def exLinksBr : List NetLink :=
  [⟨"pe1", "eth1", "br1", "p1"⟩, ⟨"br1", "p2", "gw1", "eth1"⟩]

theorem bridge_ibgp_exact_peers_witness :
    ((10, 0, 5, 2), bridgeEntry 65020 "br1" (10, 0, 5, 2))
      ∈ bridgeScan exNodesBr exLinksBr "pe1" 65020 "br1" :=
  (bridge_ibgp_exact_peers exNodesBr exLinksBr "pe1" 65020 "br1").2
    ⟨"br1", "p2", "gw1", "eth1"⟩ (by decide) (10, 0, 5, 2) (by decide)

/-- Concrete topology whose single link references interface `eth9`, which
does not exist on node `r2`. -/
def exNodesMissingIf : List NetNode :=
  [⟨"r1", none, none, some 65000, some [⟨"eth0", some (10, 0, 0, 1), some 24⟩]⟩,
   ⟨"r2", none, none, some 65000, some [⟨"eth0", some (10, 0, 0, 2), some 24⟩]⟩]

def exLinksMissingIf : List NetLink := [⟨"r1", "eth0", "r2", "eth9"⟩]

/-- C3 counterexample: contrary to the claim, a Link whose referenced
interface name does not exist on the node raises nothing: `get_remote_ip`
returns `None`, the neighbor scan is a total function that skips the Link,
and resolving the topology with the dangling Link yields exactly the same
(empty) neighbor set as resolving it with the Link deleted.  No
`TopologyReferenceError` (or any other error value) exists anywhere in the
resolution path. -/
theorem resolver_missing_interface_counterexample :
    get_remote_ip exNodesMissingIf "r2" "eth9" = none ∧
    neighborsOf exNodesMissingIf exLinksMissingIf "r1" = [] ∧
    neighborsOf exNodesMissingIf [] "r1" = [] := by
  decide

/-- C3 amended: a Link whose referenced interface name does not exist on
the referenced node is silently skipped by the adjacency resolution — the
interface lookup returns `None` and the neighbor dictionary is left
unchanged, both in the direct-peering branch (for a non-bridge remote) and
in the bridge-mediated inner scan.  No error is raised. -/
theorem resolver_skips_missing_interface :
    (∀ (nodes : List NetNode) (links : List NetLink) (hostname : String) (asn : ℕ)
        (d : NDict) (link : NetLink) (rn rp : String) (rnode : NetNode),
      remoteOfLink link hostname = some (rn, rp) →
      nodesMap nodes rn = some rnode →
      rnode.bgp.isSome →
      get_remote_ip nodes rn rp = none →
      ¬(rnode.role = some "bridge" ∨ rnode.kind = some "bridge") →
      neighborStep nodes links hostname asn d link = d)
    ∧ (∀ (nodes : List NetNode) (hostname : String) (asn : ℕ) (bridgeName : String)
        (d : NDict) (l : NetLink),
      get_remote_ip nodes (otherEndOfBridge l bridgeName).1 (otherEndOfBridge l bridgeName).2
        = none →
      bridgeInnerStep nodes hostname asn bridgeName d l = d) := by
  constructor
  · intro nodes links hostname asn d link rn rp rnode hrem hmap hbgp hip hbr
    obtain ⟨rasn, hasn⟩ := Option.isSome_iff_exists.mp hbgp
    simp only [neighborStep, hrem, hmap, hasn, hip, if_neg hbr]
  · intro nodes hostname asn br d l hip
    simp only [bridgeInnerStep]
    by_cases hguard : (otherEndOfBridge l br).1 ≠ "" ∧ (otherEndOfBridge l br).1 ≠ hostname
    · rw [if_pos hguard]
      cases hmap : nodesMap nodes (otherEndOfBridge l br).1 with
      | none => rfl
      | some pNode =>
        simp only []
        cases hbgp : pNode.bgp with
        | none => rfl
        | some pAsn =>
          simp only []
          by_cases hasn : pAsn = asn
          · rw [if_pos hasn, hip]
          · rw [if_neg hasn]
    · rw [if_neg hguard]

theorem resolver_skips_missing_interface_witness :
    neighborStep exNodesMissingIf exLinksMissingIf "r1" 65000 []
      ⟨"r1", "eth0", "r2", "eth9"⟩ = [] := by
  have h := resolver_skips_missing_interface.1 exNodesMissingIf exLinksMissingIf "r1" 65000 []
    ⟨"r1", "eth0", "r2", "eth9"⟩ "r2" "eth9"
    ⟨"r2", none, none, some 65000, some [⟨"eth0", some (10, 0, 0, 2), some 24⟩]⟩
    (by decide) (by decide) (by decide) (by decide) (by decide)
  exact h

/-! ## Topology validator (`build_topology.py`) -/

/-- A parsed IPv4 interface object (`ipaddress.ip_interface`): numeric
32-bit address and mask length. -/
structure IPv4Iface where
  addr : ℕ
  plen : ℕ
deriving DecidableEq

/-- Numeric value of a dotted-quad address. -/
def ipNum (o : Octets) : ℕ :=
  ((o.1 * 256 + o.2.1) * 256 + o.2.2.1) * 256 + o.2.2.2

/-- Model of `ipaddress.ip_interface(f"{ip}{mask}")`: parsing the textual
`a.b.c.d/n` form succeeds exactly when every octet is below 256 and the
mask length is at most 32, and `ValueError` (the `except` branch of the
validator) corresponds to `none`. -/
def parse_interface (o : Octets) (mask : ℕ) : Option IPv4Iface :=
  if o.1 < 256 ∧ o.2.1 < 256 ∧ o.2.2.1 < 256 ∧ o.2.2.2 < 256 ∧ mask ≤ 32 then
    some ⟨ipNum o, mask⟩
  else none

/-- Model of `interface.network`: the network base address (host bits
cleared) together with the mask length; two Python network objects are
equal exactly when both components agree. -/
def networkAddr (i : IPv4Iface) : ℕ × ℕ :=
  (i.addr - i.addr % 2 ^ (32 - i.plen), i.plen)

/-- Model of `interface.network.num_addresses`. -/
def numAddresses (i : IPv4Iface) : ℕ :=
  2 ^ (32 - i.plen)

/-- The violation kinds reported by `validate_data`, carrying the data
interpolated into the corresponding error strings. -/
inductive Violation where
  | duplicateIP (ip : Octets) (prevNode prevIface currNode currIface : String)
  | invalidIP (node iface : String) (ip : Octets) (mask : ℕ)
  | subnetMismatch (endA endB : String) (netA netB : ℕ × ℕ)
  | maskTooSmall (endA endB : String) (numAddrs : ℕ)
deriving DecidableEq

/-- The mutable state of the first validator loop: collected errors, the
`seen_ips` dict (IP → first (node, interface)) and the `interface_map`
dict (`"node:iface"` → parsed interface). -/
structure VState where
  errors : List Violation
  seenIPs : List (Octets × String × String)
  ifaceMap : List (String × IPv4Iface)

/-- One address-carrying interface occurrence, in processing order:
(node name, interface name, address, mask). -/
abbrev AddrOcc := String × String × Octets × ℕ

def occNode (o : AddrOcc) : String := o.1

def occIface (o : AddrOcc) : String := o.2.1

def occIP (o : AddrOcc) : Octets := o.2.2.1

def occMask (o : AddrOcc) : ℕ := o.2.2.2

/-- The address-carrying interface occurrences of the node list, in the
order the validator's nested node/interface loops visit them; interfaces
missing either the address or the mask are skipped (`continue`). -/
def addrOccs (nodes : List NetNode) : List AddrOcc :=
  nodes.flatMap (fun n =>
    match n.interfaces with
    | some ifs => ifs.filterMap (fun i =>
        match i.ipv4Address, i.ipv4Mask with
        | some a, some m => some (n.name, i.name, a, m)
        | _, _ => none)
    | none => [])

/-- Python dict read `d.get(k)` on an insertion-ordered association list
maintained by `insertAssoc`. -/
def lookupAssoc {α β : Type} [DecidableEq α] (l : List (α × β)) (k : α) : Option β :=
  (l.find? (fun e => e.1 = k)).map (fun e => e.2)

/-- Processing of one address-carrying interface in the first validator
loop: the duplicate check against `seen_ips` (which records only the first
holder of each address), then the parse into `interface_map` with the
`except ValueError` branch reporting an invalid address. -/
def occStep (st : VState) (occ : AddrOcc) : VState :=
  let st1 :=
    match st.seenIPs.find? (fun s => s.1 = occIP occ) with
    | some prev =>
      { st with errors := st.errors ++
          [Violation.duplicateIP (occIP occ) prev.2.1 prev.2.2 (occNode occ) (occIface occ)] }
    | none => { st with seenIPs := st.seenIPs ++ [(occIP occ, occNode occ, occIface occ)] }
  match parse_interface (occIP occ) (occMask occ) with
  | some ifObj =>
    { st1 with ifaceMap := insertAssoc st1.ifaceMap (occNode occ ++ ":" ++ occIface occ) ifObj }
  | none =>
    { st1 with errors := st1.errors ++
        [Violation.invalidIP (occNode occ) (occIface occ) (occIP occ) (occMask occ)] }

/-- The first validator loop over all nodes and interfaces. -/
def validatePhase1 (nodes : List NetNode) : VState :=
  (addrOccs nodes).foldl occStep ⟨[], [], []⟩

def endpointA (l : NetLink) : String := l.a ++ ":" ++ l.aPort

def endpointB (l : NetLink) : String := l.b ++ ":" ++ l.bPort

/-- Processing of one link in the second validator loop: when both
endpoints resolved to parsed interfaces, report a subnet mismatch when the
two networks differ and an undersized mask when side `a`'s network has
fewer than 2 addresses. -/
def linkStep (imap : List (String × IPv4Iface)) (errs : List Violation) (link : NetLink) :
    List Violation :=
  match lookupAssoc imap (endpointA link), lookupAssoc imap (endpointB link) with
  | some ipA, some ipB =>
    let errs1 :=
      if networkAddr ipA ≠ networkAddr ipB then
        errs ++ [Violation.subnetMismatch (endpointA link) (endpointB link)
          (networkAddr ipA) (networkAddr ipB)]
      else errs
    if numAddresses ipA < 2 then
      errs1 ++ [Violation.maskTooSmall (endpointA link) (endpointB link) (numAddresses ipA)]
    else errs1
  | _, _ => errs

/-- A topology document: the `nodes` and `links` sequences of `data.yaml`. -/
structure Topology where
  nodes : List NetNode
  links : List NetLink
deriving DecidableEq

/-- The `interface_map` of the validator after the first loop. -/
def interfaceMapOf (topo : Topology) : List (String × IPv4Iface) :=
  (validatePhase1 topo.nodes).ifaceMap

/-- Embedding of `validate_data`: the complete ordered error list collected
by both loops. -/
def validate_data (topo : Topology) : List Violation :=
  topo.links.foldl (linkStep (validatePhase1 topo.nodes).ifaceMap)
    (validatePhase1 topo.nodes).errors

/-- The `build_topology.py` main flow around `validate_data`: when any
violation was collected the script prints them all and exits with status 1
(`Except.error`, carrying the full list) before rendering the lab file;
otherwise it proceeds to render (`Except.ok`). -/
def build_topology_main (topo : Topology) : Except (List Violation) Unit :=
  if validate_data topo = [] then Except.ok () else Except.error (validate_data topo)

theorem occStep_errors_mono (st : VState) (occ : AddrOcc) (e : Violation)
    (he : e ∈ st.errors) : e ∈ (occStep st occ).errors := by
  simp only [occStep]
  cases hfind : st.seenIPs.find? (fun s => s.1 = occIP occ) with
  | some prev =>
    cases hp : parse_interface (occIP occ) (occMask occ) with
    | some ifObj => simp [hfind, hp, he]
    | none => simp [hfind, hp, he]
  | none =>
    cases hp : parse_interface (occIP occ) (occMask occ) with
    | some ifObj => simp [hfind, hp, he]
    | none => simp [hfind, hp, he]

theorem foldOcc_errors_mono (occs : List AddrOcc) (st : VState) (e : Violation)
    (he : e ∈ st.errors) : e ∈ (occs.foldl occStep st).errors := by
  induction occs generalizing st with
  | nil => exact he
  | cons o rest ih =>
    simp only [List.foldl_cons]
    exact ih _ (occStep_errors_mono st o e he)

theorem occStep_seen_mono (st : VState) (occ : AddrOcc) (s : Octets × String × String)
    (hs : s ∈ st.seenIPs) : s ∈ (occStep st occ).seenIPs := by
  simp only [occStep]
  cases hfind : st.seenIPs.find? (fun x => x.1 = occIP occ) with
  | some prev =>
    cases hp : parse_interface (occIP occ) (occMask occ) with
    | some ifObj => simpa [hfind, hp] using hs
    | none => simpa [hfind, hp] using hs
  | none =>
    cases hp : parse_interface (occIP occ) (occMask occ) with
    | some ifObj => simp [hfind, hp, hs]
    | none => simp [hfind, hp, hs]

theorem occStep_seen_key (st : VState) (occ : AddrOcc) :
    ∃ s ∈ (occStep st occ).seenIPs, s.1 = occIP occ := by
  simp only [occStep]
  cases hfind : st.seenIPs.find? (fun x => x.1 = occIP occ) with
  | some prev =>
    have hmem := List.mem_of_find?_eq_some hfind
    have hkey : prev.1 = occIP occ := by
      have := List.find?_some hfind
      simpa using this
    cases hp : parse_interface (occIP occ) (occMask occ) with
    | some ifObj => exact ⟨prev, by simpa [hfind, hp] using hmem, hkey⟩
    | none => exact ⟨prev, by simpa [hfind, hp] using hmem, hkey⟩
  | none =>
    cases hp : parse_interface (occIP occ) (occMask occ) with
    | some ifObj =>
      refine ⟨(occIP occ, occNode occ, occIface occ), ?_, rfl⟩
      simp [hfind, hp]
    | none =>
      refine ⟨(occIP occ, occNode occ, occIface occ), ?_, rfl⟩
      simp [hfind, hp]

theorem occStep_dup_creates (st : VState) (occ : AddrOcc)
    (hkey : ∃ s ∈ st.seenIPs, s.1 = occIP occ) :
    ∃ pn pi, Violation.duplicateIP (occIP occ) pn pi (occNode occ) (occIface occ)
      ∈ (occStep st occ).errors := by
  have hsome : (st.seenIPs.find? (fun x => x.1 = occIP occ)).isSome := by
    rw [List.find?_isSome]
    obtain ⟨s, hs, hk⟩ := hkey
    exact ⟨s, hs, by simpa using hk⟩
  cases hfind : st.seenIPs.find? (fun x => x.1 = occIP occ) with
  | none => rw [hfind] at hsome; cases hsome
  | some prev =>
    refine ⟨prev.2.1, prev.2.2, ?_⟩
    simp only [occStep]
    cases hp : parse_interface (occIP occ) (occMask occ) with
    | some ifObj => simp [hfind, hp]
    | none => simp [hfind, hp]

theorem foldOcc_seen_mono (occs : List AddrOcc) (st : VState) (s : Octets × String × String)
    (hs : s ∈ st.seenIPs) : s ∈ (occs.foldl occStep st).seenIPs := by
  induction occs generalizing st with
  | nil => exact hs
  | cons o rest ih =>
    simp only [List.foldl_cons]
    exact ih _ (occStep_seen_mono st o s hs)

theorem foldOcc_dup_complete (occs : List AddrOcc) (st : VState) (q : ℕ)
    (hq : q < occs.length)
    (hdup : (∃ s ∈ st.seenIPs, s.1 = occIP (occs.getD q ("", "", (0, 0, 0, 0), 0)))
      ∨ ∃ p, p < q ∧ occIP (occs.getD p ("", "", (0, 0, 0, 0), 0))
          = occIP (occs.getD q ("", "", (0, 0, 0, 0), 0))) :
    ∃ pn pi, Violation.duplicateIP (occIP (occs.getD q ("", "", (0, 0, 0, 0), 0))) pn pi
      (occNode (occs.getD q ("", "", (0, 0, 0, 0), 0)))
      (occIface (occs.getD q ("", "", (0, 0, 0, 0), 0)))
      ∈ (occs.foldl occStep st).errors := by
  induction occs generalizing st q with
  | nil => simp at hq
  | cons o rest ih =>
    cases q with
    | zero =>
      simp only [List.getD_cons_zero] at hdup ⊢
      rcases hdup with hkey | ⟨p, hp, _⟩
      · obtain ⟨pn, pi, hmem⟩ := occStep_dup_creates st o hkey
        exact ⟨pn, pi, foldOcc_errors_mono rest _ _ hmem⟩
      · simp at hp
    | succ q1 =>
      simp only [List.getD_cons_succ] at hdup ⊢
      have hq1 : q1 < rest.length := by simpa using hq
      simp only [List.foldl_cons]
      apply ih (occStep st o) q1 hq1
      rcases hdup with ⟨s, hs, hk⟩ | ⟨p, hp, heq⟩
      · exact Or.inl ⟨s, occStep_seen_mono st o s hs, hk⟩
      · cases p with
        | zero =>
          simp only [List.getD_cons_zero] at heq
          obtain ⟨s, hs, hk⟩ := occStep_seen_key st o
          exact Or.inl ⟨s, hs, by rw [hk, heq]⟩
        | succ p1 =>
          simp only [List.getD_cons_succ] at heq
          exact Or.inr ⟨p1, by omega, heq⟩

theorem foldOcc_invalid_complete (occs : List AddrOcc) (st : VState) (occ : AddrOcc)
    (hmem : occ ∈ occs) (hp : parse_interface (occIP occ) (occMask occ) = none) :
    Violation.invalidIP (occNode occ) (occIface occ) (occIP occ) (occMask occ)
      ∈ (occs.foldl occStep st).errors := by
  induction occs generalizing st with
  | nil => cases hmem
  | cons o rest ih =>
    simp only [List.foldl_cons]
    rcases List.mem_cons.mp hmem with rfl | hmem1
    · apply foldOcc_errors_mono
      simp only [occStep, hp]
      cases hfind : st.seenIPs.find? (fun x => x.1 = occIP occ) with
      | some prev => simp [hfind]
      | none => simp [hfind]
    · exact ih _ hmem1

theorem linkStep_errors_mono (imap : List (String × IPv4Iface)) (errs : List Violation)
    (link : NetLink) (e : Violation) (he : e ∈ errs) : e ∈ linkStep imap errs link := by
  simp only [linkStep]
  cases ha : lookupAssoc imap (endpointA link) with
  | none => exact he
  | some ipA =>
    cases hb : lookupAssoc imap (endpointB link) with
    | none => exact he
    | some ipB =>
      by_cases hnet : networkAddr ipA ≠ networkAddr ipB <;>
        by_cases hsize : numAddresses ipA < 2 <;>
          simp [hnet, hsize, he]

theorem foldLink_errors_mono (imap : List (String × IPv4Iface)) (L : List NetLink)
    (errs : List Violation) (e : Violation) (he : e ∈ errs) :
    e ∈ L.foldl (linkStep imap) errs := by
  induction L generalizing errs with
  | nil => exact he
  | cons l rest ih =>
    simp only [List.foldl_cons]
    exact ih _ (linkStep_errors_mono imap errs l e he)

theorem linkStep_creates (imap : List (String × IPv4Iface)) (errs : List Violation)
    (link : NetLink) (ipA ipB : IPv4Iface)
    (ha : lookupAssoc imap (endpointA link) = some ipA)
    (hb : lookupAssoc imap (endpointB link) = some ipB) :
    (networkAddr ipA ≠ networkAddr ipB →
      Violation.subnetMismatch (endpointA link) (endpointB link)
        (networkAddr ipA) (networkAddr ipB) ∈ linkStep imap errs link) ∧
    (numAddresses ipA < 2 →
      Violation.maskTooSmall (endpointA link) (endpointB link) (numAddresses ipA)
        ∈ linkStep imap errs link) := by
  constructor
  · intro hnet
    simp only [linkStep, ha, hb, if_pos hnet]
    by_cases hsize : numAddresses ipA < 2 <;> simp [hsize]
  · intro hsize
    simp only [linkStep, ha, hb, if_pos hsize]
    by_cases hnet : networkAddr ipA ≠ networkAddr ipB <;> simp [hnet, hsize]

theorem foldLink_complete (imap : List (String × IPv4Iface)) (L : List NetLink)
    (errs : List Violation) (link : NetLink) (hl : link ∈ L) (ipA ipB : IPv4Iface)
    (ha : lookupAssoc imap (endpointA link) = some ipA)
    (hb : lookupAssoc imap (endpointB link) = some ipB) :
    (networkAddr ipA ≠ networkAddr ipB →
      Violation.subnetMismatch (endpointA link) (endpointB link)
        (networkAddr ipA) (networkAddr ipB) ∈ L.foldl (linkStep imap) errs) ∧
    (numAddresses ipA < 2 →
      Violation.maskTooSmall (endpointA link) (endpointB link) (numAddresses ipA)
        ∈ L.foldl (linkStep imap) errs) := by
  induction L generalizing errs with
  | nil => cases hl
  | cons l rest ih =>
    simp only [List.foldl_cons]
    rcases List.mem_cons.mp hl with rfl | hmem
    · constructor
      · intro hnet
        exact foldLink_errors_mono imap rest _ _
          ((linkStep_creates imap errs link ipA ipB ha hb).1 hnet)
      · intro hsize
        exact foldLink_errors_mono imap rest _ _
          ((linkStep_creates imap errs link ipA ipB ha hb).2 hsize)
    · exact ih _ hmem

/-- Classifier for the violations that only the link loop can produce. -/
def isLinkViolation : Violation → Bool
  | Violation.subnetMismatch _ _ _ _ => true
  | Violation.maskTooSmall _ _ _ => true
  | _ => false

theorem occStep_no_linkViolation (st : VState) (occ : AddrOcc) (e : Violation)
    (he : e ∈ (occStep st occ).errors) : e ∈ st.errors ∨ isLinkViolation e = false := by
  simp only [occStep] at he
  cases hfind : st.seenIPs.find? (fun x => x.1 = occIP occ) with
  | some prev =>
    cases hp : parse_interface (occIP occ) (occMask occ) with
    | some ifObj =>
      simp only [hfind, hp] at he
      rcases List.mem_append.mp he with h | h
      · exact Or.inl h
      · right; rcases List.mem_singleton.mp h with rfl; rfl
    | none =>
      simp only [hfind, hp] at he
      rcases List.mem_append.mp he with h | h
      · rcases List.mem_append.mp h with h1 | h1
        · exact Or.inl h1
        · right; rcases List.mem_singleton.mp h1 with rfl; rfl
      · right; rcases List.mem_singleton.mp h with rfl; rfl
  | none =>
    cases hp : parse_interface (occIP occ) (occMask occ) with
    | some ifObj =>
      simp only [hfind, hp] at he
      exact Or.inl he
    | none =>
      simp only [hfind, hp] at he
      rcases List.mem_append.mp he with h | h
      · exact Or.inl h
      · right; rcases List.mem_singleton.mp h with rfl; rfl

theorem foldOcc_no_linkViolation (occs : List AddrOcc) (st : VState) (e : Violation)
    (he : e ∈ (occs.foldl occStep st).errors) : e ∈ st.errors ∨ isLinkViolation e = false := by
  induction occs generalizing st with
  | nil => exact Or.inl he
  | cons o rest ih =>
    simp only [List.foldl_cons] at he
    rcases ih _ he with h | h
    · exact occStep_no_linkViolation st o e h
    · exact Or.inr h

theorem foldOcc_clean (occs : List AddrOcc) (st : VState)
    (hpar : occs.Pairwise (fun a b => occIP a ≠ occIP b))
    (hvalid : ∀ occ ∈ occs, (parse_interface (occIP occ) (occMask occ)).isSome)
    (hfresh : ∀ occ ∈ occs, ∀ s ∈ st.seenIPs, s.1 ≠ occIP occ) :
    (occs.foldl occStep st).errors = st.errors := by
  induction occs generalizing st with
  | nil => rfl
  | cons o rest ih =>
    have hfind : st.seenIPs.find? (fun x => x.1 = occIP o) = none := by
      rw [List.find?_eq_none]
      intro s hs
      simpa using hfresh o (List.mem_cons_self o rest) s hs
    obtain ⟨ifObj, hp⟩ := Option.isSome_iff_exists.mp (hvalid o (List.mem_cons_self o rest))
    have hstep : occStep st o =
        ⟨st.errors, st.seenIPs ++ [(occIP o, occNode o, occIface o)],
          insertAssoc st.ifaceMap (occNode o ++ ":" ++ occIface o) ifObj⟩ := by
      simp [occStep, hfind, hp]
    simp only [List.foldl_cons, hstep]
    apply ih
    · exact hpar.of_cons
    · intro occ hocc
      exact hvalid occ (List.mem_cons_of_mem o hocc)
    · intro occ hocc s hs
      simp only [List.mem_append, List.mem_singleton] at hs
      rcases hs with hs | hs
      · exact hfresh occ (List.mem_cons_of_mem o hocc) s hs
      · rw [hs]
        exact (List.pairwise_cons.mp hpar).1 occ hocc
  
theorem foldLink_clean (imap : List (String × IPv4Iface)) (L : List NetLink)
    (errs : List Violation)
    (hok : ∀ link ∈ L, ∀ ipA ipB, lookupAssoc imap (endpointA link) = some ipA →
      lookupAssoc imap (endpointB link) = some ipB →
      networkAddr ipA = networkAddr ipB ∧ 2 ≤ numAddresses ipA) :
    L.foldl (linkStep imap) errs = errs := by
  induction L generalizing errs with
  | nil => rfl
  | cons l rest ih =>
    have hstep : linkStep imap errs l = errs := by
      simp only [linkStep]
      cases ha : lookupAssoc imap (endpointA l) with
      | none => rfl
      | some ipA =>
        cases hb : lookupAssoc imap (endpointB l) with
        | none => rfl
        | some ipB =>
          obtain ⟨hnet, hsize⟩ := hok l (List.mem_cons_self l rest) ipA ipB ha hb
          simp [hnet, Nat.not_lt_of_le hsize]
    simp only [List.foldl_cons, hstep]
    apply ih
    intro link hlink
    exact hok link (List.mem_cons_of_mem l hlink)

/-- C5: the validator collects the complete violation set in one pass — a
duplicate address at any later position, an unparseable address anywhere,
and a subnet-mismatch or undersized-mask condition on any link with both
endpoints resolved each contribute an entry to the returned list — and the
script aborts with the full list (exit 1, no artifact rendered) exactly
when that list is nonempty, while a violation-free topology yields an
empty list and the pipeline proceeds. -/
theorem validator_collects_all_and_gates :
    (∀ (topo : Topology) (p q : ℕ), p < q → q < (addrOccs topo.nodes).length →
      occIP ((addrOccs topo.nodes).getD p ("", "", (0, 0, 0, 0), 0))
        = occIP ((addrOccs topo.nodes).getD q ("", "", (0, 0, 0, 0), 0)) →
      ∃ pn pi, Violation.duplicateIP
        (occIP ((addrOccs topo.nodes).getD q ("", "", (0, 0, 0, 0), 0))) pn pi
        (occNode ((addrOccs topo.nodes).getD q ("", "", (0, 0, 0, 0), 0)))
        (occIface ((addrOccs topo.nodes).getD q ("", "", (0, 0, 0, 0), 0)))
        ∈ validate_data topo)
    ∧ (∀ (topo : Topology) (occ : AddrOcc), occ ∈ addrOccs topo.nodes →
        parse_interface (occIP occ) (occMask occ) = none →
        Violation.invalidIP (occNode occ) (occIface occ) (occIP occ) (occMask occ)
          ∈ validate_data topo)
    ∧ (∀ (topo : Topology) (link : NetLink), link ∈ topo.links → ∀ ipA ipB,
        lookupAssoc (interfaceMapOf topo) (endpointA link) = some ipA →
        lookupAssoc (interfaceMapOf topo) (endpointB link) = some ipB →
        (networkAddr ipA ≠ networkAddr ipB →
          Violation.subnetMismatch (endpointA link) (endpointB link)
            (networkAddr ipA) (networkAddr ipB) ∈ validate_data topo) ∧
        (numAddresses ipA < 2 →
          Violation.maskTooSmall (endpointA link) (endpointB link) (numAddresses ipA)
            ∈ validate_data topo))
    ∧ (∀ topo : Topology,
        (validate_data topo ≠ [] → build_topology_main topo = Except.error (validate_data topo))
        ∧ (validate_data topo = [] → build_topology_main topo = Except.ok ()))
    ∧ (∀ topo : Topology,
        (addrOccs topo.nodes).Pairwise (fun a b => occIP a ≠ occIP b) →
        (∀ occ ∈ addrOccs topo.nodes, (parse_interface (occIP occ) (occMask occ)).isSome) →
        (∀ link ∈ topo.links, ∀ ipA ipB,
          lookupAssoc (interfaceMapOf topo) (endpointA link) = some ipA →
          lookupAssoc (interfaceMapOf topo) (endpointB link) = some ipB →
          networkAddr ipA = networkAddr ipB ∧ 2 ≤ numAddresses ipA) →
        validate_data topo = []) := by
  refine ⟨?_, ?_, ?_, ?_, ?_⟩
  · intro topo p q hpq hq heq
    obtain ⟨pn, pi, h⟩ := foldOcc_dup_complete (addrOccs topo.nodes) ⟨[], [], []⟩ q hq
      (Or.inr ⟨p, hpq, heq⟩)
    exact ⟨pn, pi, foldLink_errors_mono _ _ _ _ h⟩
  · intro topo occ hocc hp
    exact foldLink_errors_mono _ _ _ _
      (foldOcc_invalid_complete (addrOccs topo.nodes) ⟨[], [], []⟩ occ hocc hp)
  · intro topo link hlink ipA ipB ha hb
    exact foldLink_complete _ topo.links _ link hlink ipA ipB ha hb
  · intro topo
    constructor
    · intro hne
      simp [build_topology_main, hne]
    · intro hempty
      simp [build_topology_main, hempty]
  · intro topo hpar hvalid hok
    rw [validate_data]
    have himap : (validatePhase1 topo.nodes).ifaceMap = interfaceMapOf topo := rfl
    rw [himap, foldLink_clean _ _ _ hok]
    exact foldOcc_clean (addrOccs topo.nodes) ⟨[], [], []⟩ hpar hvalid
      (fun occ _ s hs => absurd hs (List.not_mem_nil s))

/-- Concrete two-node topology with a duplicated address, for the C5
witness. -/
def topoDup : Topology :=
  ⟨[⟨"r1", none, none, none, some [⟨"eth0", some (10, 0, 0, 1), some 24⟩]⟩,
    ⟨"r2", none, none, none, some [⟨"eth0", some (10, 0, 0, 1), some 24⟩]⟩], []⟩

theorem validator_collects_all_and_gates_witness :
    ∃ pn pi, Violation.duplicateIP (10, 0, 0, 1) pn pi "r2" "eth0" ∈ validate_data topoDup :=
  validator_collects_all_and_gates.1 topoDup 0 1 (by norm_num) (by decide) (by decide)

theorem mem_linkStep (imap : List (String × IPv4Iface)) (errs : List Violation)
    (link : NetLink) (e : Violation) (he : e ∈ linkStep imap errs link) :
    e ∈ errs ∨ e ∈ linkStep imap [] link := by
  simp only [linkStep] at he ⊢
  cases ha : lookupAssoc imap (endpointA link) with
  | none => simp only [ha] at he ⊢; exact Or.inl he
  | some ipA =>
    cases hb : lookupAssoc imap (endpointB link) with
    | none => simp only [ha, hb] at he ⊢; exact Or.inl he
    | some ipB =>
      simp only [ha, hb] at he ⊢
      by_cases hsize : numAddresses ipA < 2
      · rw [if_pos hsize] at he ⊢
        by_cases hnet : networkAddr ipA ≠ networkAddr ipB
        · rw [if_pos hnet] at he ⊢
          rcases List.mem_append.mp he with h | h
          · rcases List.mem_append.mp h with h1 | h1
            · exact Or.inl h1
            · exact Or.inr (by simp [List.mem_singleton.mp h1])
          · exact Or.inr (by simp [List.mem_singleton.mp h])
        · rw [if_neg hnet] at he ⊢
          rcases List.mem_append.mp he with h | h
          · exact Or.inl h
          · exact Or.inr (by simp [List.mem_singleton.mp h])
      · rw [if_neg hsize] at he ⊢
        by_cases hnet : networkAddr ipA ≠ networkAddr ipB
        · rw [if_pos hnet] at he ⊢
          rcases List.mem_append.mp he with h | h
          · exact Or.inl h
          · exact Or.inr (by simp [List.mem_singleton.mp h])
        · rw [if_neg hnet] at he
          exact Or.inl he

theorem foldLink_sound (imap : List (String × IPv4Iface)) (L : List NetLink)
    (errs : List Violation) (e : Violation) (he : e ∈ L.foldl (linkStep imap) errs) :
    e ∈ errs ∨ ∃ link ∈ L, e ∈ linkStep imap [] link := by
  induction L generalizing errs with
  | nil => exact Or.inl he
  | cons l rest ih =>
    simp only [List.foldl_cons] at he
    rcases ih _ he with h | h
    · rcases mem_linkStep imap errs l e h with h1 | h1
      · exact Or.inl h1
      · exact Or.inr ⟨l, List.mem_cons_self _ _, h1⟩
    · obtain ⟨link, hl, hmem⟩ := h
      exact Or.inr ⟨link, List.mem_cons_of_mem _ hl, hmem⟩

theorem maskV_delta (imap : List (String × IPv4Iface)) (link : NetLink)
    (eA eB : String) (k : ℕ)
    (h : Violation.maskTooSmall eA eB k ∈ linkStep imap [] link) :
    eA = endpointA link ∧ eB = endpointB link ∧ k < 2 := by
  simp only [linkStep] at h
  cases ha : lookupAssoc imap (endpointA link) with
  | none => simp only [ha] at h; cases h
  | some ipA =>
    cases hb : lookupAssoc imap (endpointB link) with
    | none => simp only [ha, hb] at h; cases h
    | some ipB =>
      simp only [ha, hb] at h
      by_cases hsize : numAddresses ipA < 2
      · rw [if_pos hsize] at h
        by_cases hnet : networkAddr ipA ≠ networkAddr ipB
        · rw [if_pos hnet] at h
          rcases List.mem_append.mp h with h1 | h1
          · rcases List.mem_append.mp h1 with h2 | h2
            · cases h2
            · cases List.mem_singleton.mp h2
          · obtain ⟨he1, he2, he3⟩ := Violation.maskTooSmall.inj (List.mem_singleton.mp h1)
            exact ⟨he1, he2, by rw [he3]; exact hsize⟩
        · rw [if_neg hnet] at h
          rcases List.mem_append.mp h with h1 | h1
          · cases h1
          · obtain ⟨he1, he2, he3⟩ := Violation.maskTooSmall.inj (List.mem_singleton.mp h1)
            exact ⟨he1, he2, by rw [he3]; exact hsize⟩
      · rw [if_neg hsize] at h
        by_cases hnet : networkAddr ipA ≠ networkAddr ipB
        · rw [if_pos hnet] at h
          rcases List.mem_append.mp h with h1 | h1
          · cases h1
          · cases List.mem_singleton.mp h1
        · rw [if_neg hnet] at h
          cases h

/-- Link with `/32` on both ends. -/
def topoMask32 : Topology :=
  ⟨[⟨"r1", none, none, none, some [⟨"eth0", some (10, 0, 0, 1), some 32⟩]⟩,
    ⟨"r2", none, none, none, some [⟨"eth0", some (10, 0, 0, 2), some 32⟩]⟩],
   [⟨"r1", "eth0", "r2", "eth0"⟩]⟩

/-- Link with `/31` on both ends, same subnet. -/
def topoMask31 : Topology :=
  ⟨[⟨"r1", none, none, none, some [⟨"eth0", some (10, 0, 0, 0), some 31⟩]⟩,
    ⟨"r2", none, none, none, some [⟨"eth0", some (10, 0, 0, 1), some 31⟩]⟩],
   [⟨"r1", "eth0", "r2", "eth0"⟩]⟩

/-- Link with `/30` on both ends, same subnet. -/
def topoMask30 : Topology :=
  ⟨[⟨"r1", none, none, none, some [⟨"eth0", some (10, 0, 0, 1), some 30⟩]⟩,
    ⟨"r2", none, none, none, some [⟨"eth0", some (10, 0, 0, 2), some 30⟩]⟩],
   [⟨"r1", "eth0", "r2", "eth0"⟩]⟩

/-- C8: for every link whose two endpoints both resolved to parsed
interfaces, the validator reports an undersized-mask violation for that
link exactly when the computed subnet has fewer than 2 addresses; a `/32`
on both ends yields the violation while `/31` or `/30` yields a clean
validation. -/
theorem undersized_mask_iff :
    (∀ (topo : Topology) (link : NetLink), link ∈ topo.links → ∀ ipA ipB,
      lookupAssoc (interfaceMapOf topo) (endpointA link) = some ipA →
      lookupAssoc (interfaceMapOf topo) (endpointB link) = some ipB →
      (Violation.maskTooSmall (endpointA link) (endpointB link) (numAddresses ipA)
          ∈ validate_data topo ↔ numAddresses ipA < 2))
    ∧ Violation.maskTooSmall "r1:eth0" "r2:eth0" 1 ∈ validate_data topoMask32
    ∧ validate_data topoMask31 = []
    ∧ validate_data topoMask30 = [] := by
  refine ⟨?_, by decide, by decide, by decide⟩
  intro topo link hlink ipA ipB ha hb
  constructor
  · intro hmem
    rcases foldLink_sound (interfaceMapOf topo) topo.links
        (validatePhase1 topo.nodes).errors _ hmem with h | h
    · rcases foldOcc_no_linkViolation (addrOccs topo.nodes) ⟨[], [], []⟩ _ h with h1 | h1
      · cases h1
      · cases h1
    · obtain ⟨link1, _, hdelta⟩ := h
      exact (maskV_delta (interfaceMapOf topo) link1 _ _ _ hdelta).2.2
  · intro hsize
    exact (foldLink_complete (interfaceMapOf topo) topo.links
      (validatePhase1 topo.nodes).errors link hlink ipA ipB ha hb).2 hsize

theorem undersized_mask_iff_witness :
    numAddresses ⟨ipNum (10, 0, 0, 1), 32⟩ < 2 :=
  (undersized_mask_iff.1 topoMask32 ⟨"r1", "eth0", "r2", "eth0"⟩ (by decide)
    ⟨ipNum (10, 0, 0, 1), 32⟩ ⟨ipNum (10, 0, 0, 2), 32⟩ (by decide) (by decide)).mp
    (by decide)

/-! ## Policy compiler (`manager.py` steps 4 and 7, via `handle_traffic`) -/

/-- One policy call `set_med(node, peer, value, pfx, seq)` or
`set_local_pref(node, peer, value, pfx, seq)`: apply `value` on router
`node` for BGP peer `peer` and destination prefix `pfx` with route-map
sequence number `seq`. -/
structure PolicyDirective where
  node : String
  peer : String
  pfx : String
  value : ℕ
  seq : ℕ
deriving DecidableEq

/-- The two `set_med` calls emitted for one (CE, destination) cell with
nonzero choice: the unrolled `for pe_idx in [1, 2]` loop with
`med = 100 if pe_idx == choice else 200` and seq numbers `seq0`,
`seq0 + 10`. -/
def medBlock (src dst : String) (choice : ℕ) (seq0 : ℕ) : List PolicyDirective :=
  [⟨"pe1", src, dst, if 1 = choice then 100 else 200, seq0⟩,
   ⟨"pe2", src, dst, if 2 = choice then 100 else 200, seq0 + 10⟩]

/-- The two `set_local_pref` calls emitted for one (PE, destination) cell
with nonzero choice: `lp = 200 if gw_idx == choice else 100`. -/
def lpBlock (pe dst : String) (choice : ℕ) (seq0 : ℕ) : List PolicyDirective :=
  [⟨pe, "gw1", dst, if 1 = choice then 200 else 100, seq0⟩,
   ⟨pe, "gw2", dst, if 2 = choice then 200 else 100, seq0 + 10⟩]

/-- Embedding of manager step 4: iterate source × destination, skip cells
whose decision is 0, and emit the MED block for the others, threading the
`seq_med` counter (start 10, +10 per directive). -/
def medDirectives (sources dests : List String) (dec : List (List ℕ)) :
    List PolicyDirective :=
  ((sources.zip dec).foldl (fun st sr =>
    (dests.zip sr.2).foldl (fun st2 dc =>
      if dc.2 = 0 then st2 else (st2.1 + 20, st2.2 ++ medBlock sr.1 dc.1 dc.2 st2.1)) st)
    (10, [])).2

/-- Embedding of manager step 7: same iteration over PE × destination with
the Local Preference blocks and the `seq_lp` counter. -/
def lpDirectives (pes dests : List String) (dec : List (List ℕ)) :
    List PolicyDirective :=
  ((pes.zip dec).foldl (fun st pr =>
    (dests.zip pr.2).foldl (fun st2 dc =>
      if dc.2 = 0 then st2 else (st2.1 + 20, st2.2 ++ lpBlock pr.1 dc.1 dc.2 st2.1)) st)
    (10, [])).2

/-- All (row name, column name, decision) cells in iteration order. -/
def cellsOf (rows cols : List String) (dec : List (List ℕ)) :
    List (String × String × ℕ) :=
  (rows.zip dec).flatMap (fun sr => (cols.zip sr.2).map (fun dc => (sr.1, dc.1, dc.2)))

/-- The cells with nonzero decision, in iteration order. -/
def nonzeroCells (rows cols : List String) (dec : List (List ℕ)) :
    List (String × String × ℕ) :=
  (cellsOf rows cols dec).filter (fun c => c.2.2 ≠ 0)

theorem foldl_flatMap {α β γ : Type} (g : α → List β) (f : γ → β → γ) (l : List α)
    (init : γ) :
    (l.flatMap g).foldl f init = l.foldl (fun acc x => (g x).foldl f acc) init := by
  induction l generalizing init with
  | nil => rfl
  | cons a t ih => simp [List.flatMap_cons, List.foldl_append, ih]

theorem mapIdx_ext {α β : Type} (f g : ℕ → α → β) (l : List α)
    (h : ∀ i a, f i a = g i a) : l.mapIdx f = l.mapIdx g := by
  induction l generalizing f g with
  | nil => rfl
  | cons a t ih =>
    simp only [List.mapIdx_cons, h]
    rw [ih _ _ (fun i a => h (i + 1) a)]

theorem emitFold_blocks (blockF : String → String → ℕ → ℕ → List PolicyDirective)
    (cells : List (String × String × ℕ)) (seq0 : ℕ) (acc : List PolicyDirective) :
    (cells.foldl (fun st2 c =>
        if c.2.2 = 0 then st2 else (st2.1 + 20, st2.2 ++ blockF c.1 c.2.1 c.2.2 st2.1))
      (seq0, acc)).2
    = acc ++ ((cells.filter (fun c => c.2.2 ≠ 0)).mapIdx
        (fun k c => blockF c.1 c.2.1 c.2.2 (seq0 + 20 * k))).flatten := by
  induction cells generalizing seq0 acc with
  | nil => simp
  | cons c rest ih =>
    by_cases h : c.2.2 = 0
    · simp only [List.foldl_cons, if_pos h, List.filter_cons]
      rw [ih]
      simp [h]
    · simp only [List.foldl_cons, if_neg h, List.filter_cons]
      rw [ih]
      have hfil : (decide (c.2.2 ≠ 0)) = true := by simp [h]
      simp only [hfil, if_true, List.mapIdx_cons, List.flatten_cons]
      rw [mapIdx_ext (fun i a => blockF a.1 a.2.1 a.2.2 (seq0 + 20 * (i + 1)))
        (fun k a => blockF a.1 a.2.1 a.2.2 (seq0 + 20 + 20 * k))
        (rest.filter (fun c => c.2.2 ≠ 0))
        (fun i a => by ring_nf)]
      simp [List.append_assoc]

theorem nestedFold_eq_cellsFold (blockF : String → String → ℕ → ℕ → List PolicyDirective)
    (rows cols : List String) (dec : List (List ℕ)) (st : ℕ × List PolicyDirective) :
    (rows.zip dec).foldl (fun st1 sr =>
        (cols.zip sr.2).foldl (fun st2 dc =>
          if dc.2 = 0 then st2 else (st2.1 + 20, st2.2 ++ blockF sr.1 dc.1 dc.2 st2.1)) st1) st
    = (cellsOf rows cols dec).foldl (fun st2 c =>
        if c.2.2 = 0 then st2 else (st2.1 + 20, st2.2 ++ blockF c.1 c.2.1 c.2.2 st2.1)) st := by
  rw [cellsOf, foldl_flatMap]
  congr 1
  funext st1 sr
  rw [List.foldl_map]

/-- C4: the MED step emits, per (CE, destination) cell with nonzero
decision, exactly one two-directive block — preferred MED 100 on the chosen
PE, backup MED 200 on the other, chosen strictly lower — and nothing for
zero cells; symmetrically the Local Preference step emits one two-directive
block per nonzero (PE, destination) cell with Local Preference 200 on the
chosen GW and 100 on the other, chosen strictly higher. -/
theorem policy_directive_polarity :
    (∀ (sources dests : List String) (dec : List (List ℕ)),
      medDirectives sources dests dec
        = ((nonzeroCells sources dests dec).mapIdx
            (fun k c => medBlock c.1 c.2.1 c.2.2 (10 + 20 * k))).flatten)
    ∧ (∀ (pes dests : List String) (dec : List (List ℕ)),
      lpDirectives pes dests dec
        = ((nonzeroCells pes dests dec).mapIdx
            (fun k c => lpBlock c.1 c.2.1 c.2.2 (10 + 20 * k))).flatten)
    ∧ (∀ (src dst : String) (choice seq0 : ℕ), choice = 1 ∨ choice = 2 →
        ∃ dPref dBack,
          (medBlock src dst choice seq0 = [dPref, dBack] ∨
            medBlock src dst choice seq0 = [dBack, dPref]) ∧
          dPref.node = "pe" ++ toString choice ∧
          dBack.node = "pe" ++ toString (3 - choice) ∧
          dPref.value = 100 ∧ dBack.value = 200 ∧ dPref.value < dBack.value)
    ∧ (∀ (pe dst : String) (choice seq0 : ℕ), choice = 1 ∨ choice = 2 →
        ∃ dPref dBack,
          (lpBlock pe dst choice seq0 = [dPref, dBack] ∨
            lpBlock pe dst choice seq0 = [dBack, dPref]) ∧
          dPref.peer = "gw" ++ toString choice ∧
          dBack.peer = "gw" ++ toString (3 - choice) ∧
          dPref.value = 200 ∧ dBack.value = 100 ∧ dBack.value < dPref.value) := by
  refine ⟨?_, ?_, ?_, ?_⟩
  · intro sources dests dec
    rw [medDirectives, nestedFold_eq_cellsFold medBlock sources dests dec (10, []),
      emitFold_blocks medBlock (cellsOf sources dests dec) 10 []]
    rfl
  · intro pes dests dec
    rw [lpDirectives, nestedFold_eq_cellsFold lpBlock pes dests dec (10, []),
      emitFold_blocks lpBlock (cellsOf pes dests dec) 10 []]
    rfl
  · intro src dst choice seq0 hc
    rcases hc with rfl | rfl
    · refine ⟨⟨"pe1", src, dst, 100, seq0⟩, ⟨"pe2", src, dst, 200, seq0 + 10⟩,
        Or.inl ?_, rfl, rfl, rfl, rfl, by norm_num⟩
      simp [medBlock]
    · refine ⟨⟨"pe2", src, dst, 100, seq0 + 10⟩, ⟨"pe1", src, dst, 200, seq0⟩,
        Or.inr ?_, rfl, rfl, rfl, rfl, by norm_num⟩
      simp [medBlock]
  · intro pe dst choice seq0 hc
    rcases hc with rfl | rfl
    · refine ⟨⟨pe, "gw1", dst, 200, seq0⟩, ⟨pe, "gw2", dst, 100, seq0 + 10⟩,
        Or.inl ?_, rfl, rfl, rfl, rfl, by norm_num⟩
      simp [lpBlock]
    · refine ⟨⟨pe, "gw2", dst, 200, seq0 + 10⟩, ⟨pe, "gw1", dst, 100, seq0⟩,
        Or.inr ?_, rfl, rfl, rfl, rfl, by norm_num⟩
      simp [lpBlock]

theorem policy_directive_polarity_witness :
    ∃ dPref dBack,
      (medBlock "ce1" "d1" 1 10 = [dPref, dBack] ∨
        medBlock "ce1" "d1" 1 10 = [dBack, dPref]) ∧
      dPref.node = "pe" ++ toString 1 ∧
      dBack.node = "pe" ++ toString (3 - 1) ∧
      dPref.value = 100 ∧ dBack.value = 200 ∧ dPref.value < dBack.value :=
  policy_directive_polarity.2.2.1 "ce1" "d1" 1 10 (Or.inl rfl)

/-! ## Load aggregation and final export (`manager.py` steps 5 and 8) -/

/-- One row's accumulation into one aggregate row (the inner `j` loop of
manager step 5 for a fixed target choice): add the row's volume at every
column whose decision equals `target`. -/
def addInto (target : ℕ) (acc rawRow : List ℚ) (decRow : List ℕ) : List ℚ :=
  (acc.zip (rawRow.zip decRow)).map (fun p => p.1 + if p.2.2 = target then p.2.1 else 0)

/-- Embedding of manager step 5: start from `np.zeros((2, D))` and fold the
demand rows, adding each volume into aggregate row 0 when the decision is 1
and into row 1 when it is 2. -/
def aggMatrix (raw : List (List ℚ)) (dec : List (List ℕ)) (D : ℕ) : List ℚ × List ℚ :=
  (raw.zip dec).foldl
    (fun acc rd => (addInto 1 acc.1 rd.1 rd.2, addInto 2 acc.2 rd.1 rd.2))
    (List.replicate D 0, List.replicate D 0)

/-- Contribution of one demand row to the aggregate row of `target`. -/
def rowContrib (target : ℕ) (rawRow : List ℚ) (decRow : List ℕ) : ℚ :=
  ((rawRow.zip decRow).map (fun c => if c.2 = target then c.1 else 0)).sum

theorem addInto_length (target : ℕ) (acc rawRow : List ℚ) (decRow : List ℕ) :
    (addInto target acc rawRow decRow).length
      = min acc.length (min rawRow.length decRow.length) := by
  simp [addInto]

theorem addInto_sum (target : ℕ) (acc rawRow : List ℚ) (decRow : List ℕ)
    (h1 : rawRow.length = acc.length) (h2 : decRow.length = acc.length) :
    (addInto target acc rawRow decRow).sum = acc.sum + rowContrib target rawRow decRow := by
  induction acc generalizing rawRow decRow with
  | nil =>
    cases rawRow with
    | nil => simp [addInto, rowContrib]
    | cons a t => simp at h1
  | cons a accT ih =>
    cases rawRow with
    | nil => simp at h1
    | cons v rawT =>
      cases decRow with
      | nil => simp at h2
      | cons c decT =>
        have hh1 : rawT.length = accT.length := by simpa using h1
        have hh2 : decT.length = accT.length := by simpa using h2
        have := ih rawT decT hh1 hh2
        simp only [addInto, rowContrib, List.zip_cons_cons, List.map_cons,
          List.sum_cons] at this ⊢
        rw [this]
        ring

theorem aggFold_sum (D : ℕ) (rows : List (List ℚ × List ℕ)) (acc1 acc2 : List ℚ)
    (ha1 : acc1.length = D) (ha2 : acc2.length = D)
    (hlen : ∀ p ∈ rows, p.1.length = D ∧ p.2.length = D) :
    ((rows.foldl (fun acc rd => (addInto 1 acc.1 rd.1 rd.2, addInto 2 acc.2 rd.1 rd.2))
        (acc1, acc2)).1.sum
      + (rows.foldl (fun acc rd => (addInto 1 acc.1 rd.1 rd.2, addInto 2 acc.2 rd.1 rd.2))
        (acc1, acc2)).2.sum)
      = acc1.sum + acc2.sum
        + (rows.map (fun rd => rowContrib 1 rd.1 rd.2 + rowContrib 2 rd.1 rd.2)).sum := by
  induction rows generalizing acc1 acc2 with
  | nil => simp
  | cons rd rest ih =>
    have hrd := hlen rd (List.mem_cons_self rd rest)
    have hl1 : (addInto 1 acc1 rd.1 rd.2).length = D := by
      rw [addInto_length, ha1, hrd.1, hrd.2]; simp
    have hl2 : (addInto 2 acc2 rd.1 rd.2).length = D := by
      rw [addInto_length, ha2, hrd.1, hrd.2]; simp
    have hrest : ∀ p ∈ rest, p.1.length = D ∧ p.2.length = D :=
      fun p hp => hlen p (List.mem_cons_of_mem rd hp)
    simp only [List.foldl_cons]
    rw [ih _ _ hl1 hl2 hrest]
    rw [addInto_sum 1 acc1 rd.1 rd.2 (by rw [hrd.1, ha1]) (by rw [hrd.2, ha1]),
      addInto_sum 2 acc2 rd.1 rd.2 (by rw [hrd.1, ha2]) (by rw [hrd.2, ha2])]
    simp only [List.map_cons, List.sum_cons]
    ring

theorem rowContrib_split (rawRow : List ℚ) (decRow : List ℕ)
    (hlen : decRow.length = rawRow.length)
    (hnn : ∀ v ∈ rawRow, 0 ≤ v)
    (hch : ∀ c ∈ rawRow.zip decRow, 0 < c.1 → c.2 = 1 ∨ c.2 = 2) :
    rowContrib 1 rawRow decRow + rowContrib 2 rawRow decRow
      = (rawRow.map (fun v => if 0 < v then v else 0)).sum := by
  induction rawRow generalizing decRow with
  | nil => simp [rowContrib]
  | cons v rawT ih =>
    cases decRow with
    | nil => simp at hlen
    | cons c decT =>
      have hh : decT.length = rawT.length := by simpa using hlen
      have hnnT : ∀ x ∈ rawT, 0 ≤ x := fun x hx => hnn x (List.mem_cons_of_mem v hx)
      have hchT : ∀ x ∈ rawT.zip decT, 0 < x.1 → x.2 = 1 ∨ x.2 = 2 :=
        fun x hx => hch x (by simp [List.zip_cons_cons, hx])
      have hrec := ih decT hh hnnT hchT
      simp only [rowContrib, List.zip_cons_cons, List.map_cons, List.sum_cons] at hrec ⊢
      by_cases hv : 0 < v
      · rcases hch (v, c) (by simp [List.zip_cons_cons]) hv with hc | hc
        · have hc1 : c = 1 := hc
          subst hc1
          simp only [if_pos rfl, if_neg (by norm_num : ¬(1:ℕ) = 2), if_pos hv, if_true,
            ite_true]
          linarith
        · have hc2 : c = 2 := hc
          subst hc2
          simp only [if_neg (by norm_num : ¬(2:ℕ) = 1), if_pos rfl, if_pos hv, if_true,
            ite_true]
          linarith
      · have hv0 : v = 0 := le_antisymm (not_lt.mp hv) (hnn v (List.mem_cons_self v rawT))
        subst hv0
        simp only [if_neg hv]
        by_cases hc1 : c = 1 <;> by_cases hc2 : c = 2 <;> simp_all

/-- C9: for a demand matrix of non-negative volumes and a decision matrix
assigning every positive cell to 1 or 2, the two aggregate rows re-sum to
the total of all positive demand cells — no volume is lost or duplicated
across the PE split. -/
theorem aggregation_round_trip :
    ∀ (raw : List (List ℚ)) (dec : List (List ℕ)) (D : ℕ),
      dec.length = raw.length →
      (∀ r ∈ raw, r.length = D) →
      (∀ dr ∈ dec, dr.length = D) →
      (∀ r ∈ raw, ∀ v ∈ r, 0 ≤ v) →
      (∀ p ∈ raw.zip dec, ∀ c ∈ p.1.zip p.2, 0 < c.1 → c.2 = 1 ∨ c.2 = 2) →
      (aggMatrix raw dec D).1.sum + (aggMatrix raw dec D).2.sum
        = (raw.map (fun r => (r.map (fun v => if 0 < v then v else 0)).sum)).sum := by
  intro raw dec D hdl hrl hdr hnn hch
  have hzlen : ∀ p ∈ raw.zip dec, p.1.length = D ∧ p.2.length = D := by
    intro p hp
    obtain ⟨h1, h2⟩ := List.of_mem_zip hp
    exact ⟨hrl p.1 h1, hdr p.2 h2⟩
  rw [aggMatrix]
  rw [aggFold_sum D (raw.zip dec) (List.replicate D 0) (List.replicate D 0)
    (by simp) (by simp) hzlen]
  simp only [List.sum_replicate, smul_zero, zero_add]
  have key : ∀ (R : List (List ℚ)) (Dc : List (List ℕ)), Dc.length = R.length →
      (∀ r ∈ R, ∀ v ∈ r, 0 ≤ v) →
      (∀ p ∈ R.zip Dc, p.2.length = p.1.length) →
      (∀ p ∈ R.zip Dc, ∀ c ∈ p.1.zip p.2, 0 < c.1 → c.2 = 1 ∨ c.2 = 2) →
      ((R.zip Dc).map (fun rd => rowContrib 1 rd.1 rd.2 + rowContrib 2 rd.1 rd.2)).sum
        = (R.map (fun r => (r.map (fun v => if 0 < v then v else 0)).sum)).sum := by
    intro R
    induction R with
    | nil => intro Dc _ _ _ _; simp
    | cons r RT ih =>
      intro Dc hlen hnn1 hplen hpch
      cases Dc with
      | nil => simp at hlen
      | cons dr DT =>
        have hmem : (r, dr) ∈ (r :: RT).zip (dr :: DT) := by
          simp [List.zip_cons_cons]
        simp only [List.zip_cons_cons, List.map_cons, List.sum_cons]
        rw [rowContrib_split r dr (hplen (r, dr) hmem)
          (hnn1 r (List.mem_cons_self r RT)) (hpch (r, dr) hmem)]
        rw [ih DT (by simpa using hlen)
          (fun x hx => hnn1 x (List.mem_cons_of_mem r hx))
          (fun p hp => hplen p (by simp [List.zip_cons_cons, hp]))
          (fun p hp => hpch p (by simp [List.zip_cons_cons, hp]))]
  apply key raw dec hdl hnn
  · intro p hp
    obtain ⟨h1, h2⟩ := hzlen p hp
    rw [h1, h2]
  · exact hch

def rawW : List (List ℚ) := [[100, 0], [50, 200]]

def decW : List (List ℕ) := [[1, 0], [2, 1]]

theorem aggregation_round_trip_witness :
    (aggMatrix rawW decW 2).1.sum + (aggMatrix rawW decW 2).2.sum
      = (rawW.map (fun r => (r.map (fun v => if 0 < v then v else 0)).sum)).sum :=
  aggregation_round_trip rawW decW 2 (by decide) (by decide) (by decide)
    (by norm_num [rawW, List.forall_mem_cons])
    (by
      norm_num [rawW, decW, List.forall_mem_cons]
      constructor
      · rintro a b (⟨rfl, rfl⟩ | ⟨rfl, rfl⟩) h
        · left; rfl
        · norm_num at h
      · rintro a b (⟨rfl, rfl⟩ | ⟨rfl, rfl⟩) h
        · right; rfl
        · left; rfl)

theorem getD_append_left {α : Type} (l l2 : List α) (i : ℕ) (d : α) (h : i < l.length) :
    (l ++ l2).getD i d = l.getD i d := by
  induction l generalizing i with
  | nil => simp at h
  | cons a t ih =>
    cases i with
    | zero => rfl
    | succ k => simpa using ih k (by simpa using h)

theorem getD_append_shift {α : Type} (l l2 : List α) (i : ℕ) (d : α) :
    (l ++ l2).getD (l.length + i) d = l2.getD i d := by
  induction l with
  | nil => simp
  | cons a t ih => simpa [Nat.succ_add] using ih

theorem getD_take {α : Type} (v : List α) (n j : ℕ) (d : α) (h : j < n) :
    (v.take n).getD j d = v.getD j d := by
  induction v generalizing n j with
  | nil => simp
  | cons a t ih =>
    cases n with
    | zero => omega
    | succ m =>
      cases j with
      | zero => rfl
      | succ k => simpa using ih m k (by omega)

theorem getD_drop {α : Type} (v : List α) (n j : ℕ) (d : α) :
    (v.drop n).getD j d = v.getD (n + j) d := by
  induction v generalizing n with
  | nil => simp
  | cons a t ih =>
    cases n with
    | zero => simp
    | succ m => simp [Nat.succ_add, ih m]

theorem getD_mem {α : Type} (l : List α) (i : ℕ) (d : α) (h : i < l.length) :
    l.getD i d ∈ l := by
  rw [List.getD_eq_getElem l d h]
  exact List.getElem_mem h

theorem nonneg_getD (r : List ℚ) (j : ℕ) (hnn : ∀ v ∈ r, 0 ≤ v) : 0 ≤ r.getD j 0 := by
  by_cases h : j < r.length
  · exact hnn _ (getD_mem r j 0 h)
  · rw [List.getD_eq_default r 0 (le_of_not_lt h)]

theorem getD_pair_mem_zip {α β : Type} (l1 : List α) (l2 : List β) (i : ℕ) (d1 : α) (d2 : β)
    (h1 : i < l1.length) (h2 : i < l2.length) :
    (l1.getD i d1, l2.getD i d2) ∈ l1.zip l2 := by
  induction l1 generalizing l2 i with
  | nil => simp at h1
  | cons a t ih =>
    cases l2 with
    | nil => simp at h2
    | cons b t2 =>
      cases i with
      | zero => simp [List.zip_cons_cons]
      | succ k =>
        simp only [List.zip_cons_cons, List.getD_cons_succ]
        exact List.mem_cons_of_mem _ (ih t2 k (by simpa using h1) (by simpa using h2))

theorem flatten_length_eq {α : Type} (raw : List (List α)) (D : ℕ)
    (h : ∀ r ∈ raw, r.length = D) : raw.flatten.length = raw.length * D := by
  induction raw with
  | nil => simp
  | cons r t ih =>
    simp only [List.flatten_cons, List.length_append, List.length_cons]
    rw [h r (List.mem_cons_self r t), ih (fun x hx => h x (List.mem_cons_of_mem r hx))]
    ring

theorem flatten_getD {α : Type} (raw : List (List α)) (D : ℕ)
    (h : ∀ r ∈ raw, r.length = D) (i j : ℕ) (hi : i < raw.length) (hj : j < D) (d : α) :
    raw.flatten.getD (i * D + j) d = (raw.getD i []).getD j d := by
  induction raw generalizing i with
  | nil => simp at hi
  | cons r t ih =>
    cases i with
    | zero =>
      simp only [List.flatten_cons, List.getD_cons_zero, Nat.zero_mul, Nat.zero_add]
      exact getD_append_left r t.flatten j d (by rw [h r (List.mem_cons_self r t)]; exact hj)
    | succ k =>
      have hr : r.length = D := h r (List.mem_cons_self r t)
      have harith : (k + 1) * D + j = r.length + (k * D + j) := by rw [hr]; ring
      simp only [List.flatten_cons, List.getD_cons_succ, harith]
      rw [getD_append_shift]
      exact ih (fun x hx => h x (List.mem_cons_of_mem r hx)) k (by simpa using hi)

/-- Row-chunking with an explicit row count: `vector.reshape((rows, cols))`
in C order. -/
def reshapeAux {α : Type} (cols : ℕ) : ℕ → List α → List (List α)
  | 0, _ => []
  | r + 1, v => v.take cols :: reshapeAux cols r (v.drop cols)

def reshape2 {α : Type} (rows cols : ℕ) (v : List α) : List (List α) :=
  reshapeAux cols rows v

theorem reshape2_length {α : Type} (rows cols : ℕ) (v : List α) :
    (reshape2 rows cols v).length = rows := by
  induction rows generalizing v with
  | zero => rfl
  | succ r ih => simpa [reshape2, reshapeAux] using ih (v.drop cols)

theorem reshape2_getD {α : Type} (rows cols : ℕ) (v : List α) (i j : ℕ) (d : α)
    (hi : i < rows) (hj : j < cols) :
    ((reshape2 rows cols v).getD i []).getD j d = v.getD (i * cols + j) d := by
  induction i generalizing rows v with
  | zero =>
    cases rows with
    | zero => omega
    | succ r =>
      simp only [reshape2, reshapeAux, List.getD_cons_zero, Nat.zero_mul, Nat.zero_add]
      exact getD_take v cols j d hj
  | succ k ih =>
    cases rows with
    | zero => omega
    | succ r =>
      simp only [reshape2, reshapeAux, List.getD_cons_succ]
      rw [show reshapeAux cols r (List.drop cols v) = reshape2 r cols (List.drop cols v)
        from rfl]
      rw [ih r (v.drop cols) (by omega)]
      rw [getD_drop]
      congr 1
      ring

theorem reshape2_row_length {α : Type} (rows cols : ℕ) (v : List α)
    (hv : v.length = rows * cols) :
    ∀ r ∈ reshape2 rows cols v, r.length = cols := by
  induction rows generalizing v with
  | zero => intro r hr; simp [reshape2, reshapeAux] at hr
  | succ n ih =>
    intro r hr
    simp only [reshape2, reshapeAux, List.mem_cons] at hr
    rcases hr with rfl | hr
    · simp only [List.length_take]
      have : cols ≤ v.length := by rw [hv]; nlinarith [Nat.succ_mul n cols]
      omega
    · apply ih (v.drop cols) _ r hr
      simp only [List.length_drop, hv, Nat.succ_mul]
      omega

theorem mem_mapIdx {α β : Type} (g : ℕ → α → β) (l : List α) (b : β)
    (hb : b ∈ l.mapIdx g) : ∃ i a, l[i]? = some a ∧ b = g i a := by
  induction l generalizing g with
  | nil => rw [List.mapIdx_nil] at hb; cases hb
  | cons x t ih =>
    rw [List.mapIdx_cons] at hb
    rcases List.mem_cons.mp hb with h | h
    · exact ⟨0, x, by simp, h⟩
    · obtain ⟨i, a, hia, hba⟩ := ih _ h
      exact ⟨i + 1, a, by simpa using hia, hba⟩

theorem map_mapIdx_own {α β γ : Type} (f : β → γ) (g : ℕ → α → β) (l : List α) :
    (l.mapIdx g).map f = l.mapIdx (fun i a => f (g i a)) := by
  induction l generalizing g with
  | nil => rfl
  | cons x t ih => simp only [List.mapIdx_cons, List.map_cons, ih]

theorem addInto_getD (target : ℕ) (acc rawRow : List ℚ) (decRow : List ℕ) (j : ℕ)
    (h1 : j < acc.length) (h2 : j < rawRow.length) (h3 : j < decRow.length) :
    (addInto target acc rawRow decRow).getD j 0
      = acc.getD j 0 + (if decRow.getD j 0 = target then rawRow.getD j 0 else 0) := by
  induction acc generalizing rawRow decRow j with
  | nil => simp at h1
  | cons a accT ih =>
    cases rawRow with
    | nil => simp at h2
    | cons v rawT =>
      cases decRow with
      | nil => simp at h3
      | cons c decT =>
        cases j with
        | zero => simp [addInto]
        | succ k =>
          simp only [addInto, List.zip_cons_cons, List.map_cons, List.getD_cons_succ]
          exact ih rawT decT k (by simpa using h1) (by simpa using h2) (by simpa using h3)

theorem aggFold_getD (D : ℕ) (rows : List (List ℚ × List ℕ)) (acc1 acc2 : List ℚ) (j : ℕ)
    (hj : j < D) (ha1 : acc1.length = D) (ha2 : acc2.length = D)
    (hlen : ∀ p ∈ rows, p.1.length = D ∧ p.2.length = D) :
    ((rows.foldl (fun acc rd => (addInto 1 acc.1 rd.1 rd.2, addInto 2 acc.2 rd.1 rd.2))
        (acc1, acc2)).1.getD j 0
      = acc1.getD j 0 + (rows.map (fun rd => if rd.2.getD j 0 = 1 then rd.1.getD j 0 else 0)).sum)
    ∧ ((rows.foldl (fun acc rd => (addInto 1 acc.1 rd.1 rd.2, addInto 2 acc.2 rd.1 rd.2))
        (acc1, acc2)).2.getD j 0
      = acc2.getD j 0 + (rows.map (fun rd => if rd.2.getD j 0 = 2 then rd.1.getD j 0 else 0)).sum) := by
  induction rows generalizing acc1 acc2 with
  | nil => simp
  | cons rd rest ih =>
    have hrd := hlen rd (List.mem_cons_self rd rest)
    have hl1 : (addInto 1 acc1 rd.1 rd.2).length = D := by
      rw [addInto_length, ha1, hrd.1, hrd.2]; simp
    have hl2 : (addInto 2 acc2 rd.1 rd.2).length = D := by
      rw [addInto_length, ha2, hrd.1, hrd.2]; simp
    have hrest : ∀ p ∈ rest, p.1.length = D ∧ p.2.length = D :=
      fun p hp => hlen p (List.mem_cons_of_mem rd hp)
    simp only [List.foldl_cons]
    obtain ⟨ih1, ih2⟩ := ih _ _ hl1 hl2 hrest
    constructor
    · rw [ih1, addInto_getD 1 acc1 rd.1 rd.2 j (by omega) (by rw [hrd.1]; exact hj)
        (by rw [hrd.2]; exact hj)]
      simp only [List.map_cons, List.sum_cons]
      ring
    · rw [ih2, addInto_getD 2 acc2 rd.1 rd.2 j (by omega) (by rw [hrd.1]; exact hj)
        (by rw [hrd.2]; exact hj)]
      simp only [List.map_cons, List.sum_cons]
      ring

theorem replicate_getD_zero (D j : ℕ) : (List.replicate D (0:ℚ)).getD j 0 = 0 := by
  induction D generalizing j with
  | zero => simp
  | succ n ih =>
    cases j with
    | zero => simp [List.replicate_succ]
    | succ k => simp [List.replicate_succ, ih k]

theorem aggMatrix_getD (raw : List (List ℚ)) (dec : List (List ℕ)) (D j : ℕ) (hj : j < D)
    (hlen : ∀ p ∈ raw.zip dec, p.1.length = D ∧ p.2.length = D) :
    ((aggMatrix raw dec D).1.getD j 0
      = ((raw.zip dec).map (fun rd => if rd.2.getD j 0 = 1 then rd.1.getD j 0 else 0)).sum)
    ∧ ((aggMatrix raw dec D).2.getD j 0
      = ((raw.zip dec).map (fun rd => if rd.2.getD j 0 = 2 then rd.1.getD j 0 else 0)).sum) := by
  have h := aggFold_getD D (raw.zip dec) (List.replicate D 0) (List.replicate D 0) j hj
    (by simp) (by simp) hlen
  rw [aggMatrix]
  rw [replicate_getD_zero] at h
  simpa using h

theorem aggMatrix_lengths (raw : List (List ℚ)) (dec : List (List ℕ)) (D : ℕ)
    (hlen : ∀ p ∈ raw.zip dec, p.1.length = D ∧ p.2.length = D) :
    (aggMatrix raw dec D).1.length = D ∧ (aggMatrix raw dec D).2.length = D := by
  rw [aggMatrix]
  suffices h : ∀ (rows : List (List ℚ × List ℕ)) (acc1 acc2 : List ℚ),
      acc1.length = D → acc2.length = D → (∀ p ∈ rows, p.1.length = D ∧ p.2.length = D) →
      ((rows.foldl (fun acc rd => (addInto 1 acc.1 rd.1 rd.2, addInto 2 acc.2 rd.1 rd.2))
          (acc1, acc2)).1.length = D
        ∧ (rows.foldl (fun acc rd => (addInto 1 acc.1 rd.1 rd.2, addInto 2 acc.2 rd.1 rd.2))
          (acc1, acc2)).2.length = D) by
    exact h (raw.zip dec) _ _ (by simp) (by simp) hlen
  intro rows
  induction rows with
  | nil => intro acc1 acc2 h1 h2 _; exact ⟨h1, h2⟩
  | cons rd rest ih =>
    intro acc1 acc2 h1 h2 hl
    have hrd := hl rd (List.mem_cons_self rd rest)
    simp only [List.foldl_cons]
    exact ih _ _ (by rw [addInto_length, h1, hrd.1, hrd.2]; simp)
      (by rw [addInto_length, h2, hrd.1, hrd.2]; simp)
      (fun p hp => hl p (List.mem_cons_of_mem rd hp))

theorem mapScelta_length (c : List ℚ) (x : List Bool) :
    (mapScelta c x).length = min c.length x.length := by
  simp [mapScelta]

theorem sum_pos_of_mem (l : List ℚ) (x : ℚ) (hx : x ∈ l) (hpos : 0 < x)
    (hnn : ∀ y ∈ l, 0 ≤ y) : 0 < l.sum :=
  lt_of_lt_of_le hpos (List.single_le_sum hnn x hx)

/-- One exported record of manager step 8, carried by indices: the source
JSON stores `sources[src]`, `destinations[dst]`, `volume`, `pes[peIdx]` and
the string `gw` followed by `gwIdx`. -/
structure FinalPath where
  src : ℕ
  dst : ℕ
  volume : ℚ
  peIdx : ℕ
  gwIdx : ℕ
deriving DecidableEq

/-- Manager step 3: the ingress assignment vector reshaped to
(sources × destinations). -/
def pipelineDecCE (raw : List (List ℚ)) (D : ℕ) : List (List ℕ) :=
  reshape2 raw.length D (ottimizzazione_scelta_PE raw)

/-- Manager step 5 applied to the ingress decision matrix. -/
def pipelineAgg (raw : List (List ℚ)) (D : ℕ) : List ℚ × List ℚ :=
  aggMatrix raw (pipelineDecCE raw D) D

/-- Manager step 6: the egress assignment on the aggregate matrix, reshaped
to (2 × destinations). -/
def pipelineDecGW (raw : List (List ℚ)) (D : ℕ) (cap1 cap2 : ℚ) : List (List ℕ) :=
  reshape2 2 D
    (ottimizzazione_scelta_GW cap1 cap2 [(pipelineAgg raw D).1, (pipelineAgg raw D).2])

/-- Manager step 8: one record per positive demand cell, with
`pe_idx = dec_ce_pe[i][j] - 1` and `gw_idx = dec_pe_gw[pe_idx][j]`.  The
Python `- 1` acts on a value the pipeline guarantees to be 1 or 2 at a
positive cell, where natural subtraction agrees with it. -/
def finalPaths (raw : List (List ℚ)) (D : ℕ) (cap1 cap2 : ℚ) : List FinalPath :=
  (raw.mapIdx (fun i row =>
    (row.mapIdx (fun j vol =>
      if 0 < vol then
        [⟨i, j, vol,
          ((pipelineDecCE raw D).getD i []).getD j 0 - 1,
          ((pipelineDecGW raw D cap1 cap2).getD
            (((pipelineDecCE raw D).getD i []).getD j 0 - 1) []).getD j 0⟩]
      else [])).flatten)).flatten

/-- C10: exactly one FinalPath record is exported per positive demand cell
(in iteration order), its `peIdx` is the PE chosen by the ingress
assignment for that cell (`peIdx + 1` equals the decision value), and its
`gwIdx` is always 1 or 2 — never 0 — because the aggregate load at the
chosen (PE, destination) position is positive, so the egress assignment
there is nonzero. -/
theorem final_export_invariants :
    ∀ (raw : List (List ℚ)) (D : ℕ) (cap1 cap2 : ℚ),
      (∀ r ∈ raw, r.length = D) →
      (∀ r ∈ raw, ∀ v ∈ r, 0 ≤ v) →
      ((finalPaths raw D cap1 cap2).map (fun r => (r.src, r.dst))
        = (raw.mapIdx (fun i row =>
            (row.mapIdx (fun j v => if 0 < v then [(i, j)] else [])).flatten)).flatten)
      ∧ (∀ r ∈ finalPaths raw D cap1 cap2,
          0 < r.volume
          ∧ r.peIdx + 1 = ((pipelineDecCE raw D).getD r.src []).getD r.dst 0
          ∧ (r.gwIdx = 1 ∨ r.gwIdx = 2)) := by
  intro raw D cap1 cap2 hrows hnn
  constructor
  · rw [finalPaths, List.map_flatten, map_mapIdx_own]
    congr 1
    apply mapIdx_ext
    intro i row
    rw [List.map_flatten, map_mapIdx_own]
    congr 1
    apply mapIdx_ext
    intro j v
    by_cases hv : 0 < v <;> simp [hv]
  · intro r hr
    rw [finalPaths, List.mem_flatten] at hr
    obtain ⟨outer, houter, hrout⟩ := hr
    obtain ⟨i, row, hri, rfl⟩ := mem_mapIdx _ _ _ houter
    rw [List.mem_flatten] at hrout
    obtain ⟨cell, hcellmem, hrcell⟩ := hrout
    obtain ⟨j, v, hrj, rfl⟩ := mem_mapIdx _ _ _ hcellmem
    by_cases hv : 0 < v
    · rw [if_pos hv] at hrcell
      have hreq := List.mem_singleton.mp hrcell
      subst hreq
      have hrowlt : i < raw.length := (List.getElem?_eq_some.mp hri).1
      have hrawgetD : raw.getD i [] = row := by
        rw [List.getD_eq_getElem?_getD, hri]; rfl
      have hrowmem : row ∈ raw := by
        rw [← hrawgetD]; exact getD_mem raw i [] hrowlt
      have hrowlen : row.length = D := hrows row hrowmem
      have hjrow : j < row.length := (List.getElem?_eq_some.mp hrj).1
      have hjD : j < D := by rw [← hrowlen]; exact hjrow
      have hrowj : row.getD j 0 = v := by
        rw [List.getD_eq_getElem?_getD, hrj]; rfl
      -- flattened demand vector
      have hclen : raw.flatten.length = raw.length * D := flatten_length_eq raw D hrows
      have hpos1 : i * D + j < raw.flatten.length := by
        rw [hclen]
        have h1 : i + 1 ≤ raw.length := Nat.succ_le_of_lt hrowlt
        have h2 : (i + 1) * D ≤ raw.length * D := Nat.mul_le_mul_right D h1
        have h3 : i * D + j < (i + 1) * D := by
          have : (i + 1) * D = i * D + D := by ring
          omega
        omega
      have hcv : raw.flatten.getD (i * D + j) 0 = v := by
        rw [flatten_getD raw D hrows i j hrowlt hjD 0, hrawgetD, hrowj]
      -- ingress choice at this cell
      have hPEeq : ottimizzazione_scelta_PE raw
          = mapScelta raw.flatten (solve_partitioning_milp raw.flatten) := rfl
      have hPElen : (ottimizzazione_scelta_PE raw).length = raw.length * D := by
        rw [hPEeq, mapScelta_length, solve_partitioning_milp_length, ← hclen]
        simp
      have hdecCE : ((pipelineDecCE raw D).getD i []).getD j 0
          = (ottimizzazione_scelta_PE raw).getD (i * D + j) 0 :=
        reshape2_getD raw.length D _ i j 0 hrowlt hjD
      have houtPE : (ottimizzazione_scelta_PE raw).getD (i * D + j) 0
          = if raw.flatten.getD (i * D + j) 0 ≠ 0 then
              (if (solve_partitioning_milp raw.flatten).getD (i * D + j) false then 2 else 1)
            else 0 := by
        rw [hPEeq]
        exact mapScelta_getD raw.flatten _ _ (solve_partitioning_milp_length raw.flatten) hpos1
      have hvne : raw.flatten.getD (i * D + j) 0 ≠ 0 := by
        rw [hcv]; exact ne_of_gt hv
      have hchoice : ((pipelineDecCE raw D).getD i []).getD j 0 = 1
          ∨ ((pipelineDecCE raw D).getD i []).getD j 0 = 2 := by
        rw [hdecCE, houtPE, if_pos hvne]
        by_cases hb : (solve_partitioning_milp raw.flatten).getD (i * D + j) false = true
        · right; rw [if_pos hb]
        · left; rw [if_neg hb]
      refine ⟨hv, ?_, ?_⟩
      · show ((pipelineDecCE raw D).getD i []).getD j 0 - 1 + 1
          = ((pipelineDecCE raw D).getD i []).getD j 0
        rcases hchoice with h | h <;> rw [h]
      -- aggregate positivity and the egress choice
      · have hdeclen : (pipelineDecCE raw D).length = raw.length :=
          reshape2_length raw.length D _
        have hdecrows : ∀ dr ∈ pipelineDecCE raw D, dr.length = D :=
          reshape2_row_length raw.length D _ hPElen
        have hzlen : ∀ p ∈ raw.zip (pipelineDecCE raw D),
            p.1.length = D ∧ p.2.length = D := by
          intro p hp
          obtain ⟨h1, h2⟩ := List.of_mem_zip hp
          exact ⟨hrows p.1 h1, hdecrows p.2 h2⟩
        have hagg := aggMatrix_getD raw (pipelineDecCE raw D) D j hjD hzlen
        have hagglen := aggMatrix_lengths raw (pipelineDecCE raw D) D hzlen
        have hagglen2 : (pipelineAgg raw D).1.length = D ∧ (pipelineAgg raw D).2.length = D :=
          hagglen
        have hpairmem : (raw.getD i [], (pipelineDecCE raw D).getD i [])
            ∈ raw.zip (pipelineDecCE raw D) :=
          getD_pair_mem_zip raw (pipelineDecCE raw D) i [] [] hrowlt (by omega)
        have hterm_nonneg : ∀ t ∈ (raw.zip (pipelineDecCE raw D)).map
            (fun rd => if rd.2.getD j 0 = 1 then rd.1.getD j 0 else 0), 0 ≤ t := by
          intro t ht
          obtain ⟨rd, hrd, rfl⟩ := List.mem_map.mp ht
          by_cases hc : rd.2.getD j 0 = 1
          · rw [if_pos hc]
            exact nonneg_getD rd.1 j (hnn rd.1 (List.of_mem_zip hrd).1)
          · rw [if_neg hc]
        have hterm_nonneg2 : ∀ t ∈ (raw.zip (pipelineDecCE raw D)).map
            (fun rd => if rd.2.getD j 0 = 2 then rd.1.getD j 0 else 0), 0 ≤ t := by
          intro t ht
          obtain ⟨rd, hrd, rfl⟩ := List.mem_map.mp ht
          by_cases hc : rd.2.getD j 0 = 2
          · rw [if_pos hc]
            exact nonneg_getD rd.1 j (hnn rd.1 (List.of_mem_zip hrd).1)
          · rw [if_neg hc]
        -- the flattened aggregate vector
        have hflat2 : ([(pipelineAgg raw D).1, (pipelineAgg raw D).2] :
            List (List ℚ)).flatten = (pipelineAgg raw D).1 ++ (pipelineAgg raw D).2 := by
          simp
        have hflatlen : ([(pipelineAgg raw D).1, (pipelineAgg raw D).2] :
            List (List ℚ)).flatten.length = D + D := by
          rw [hflat2, List.length_append, hagglen2.1, hagglen2.2]
        have hGWeq : ottimizzazione_scelta_GW cap1 cap2
              [(pipelineAgg raw D).1, (pipelineAgg raw D).2]
            = mapScelta ([(pipelineAgg raw D).1, (pipelineAgg raw D).2] :
                List (List ℚ)).flatten
              (solve_minimax_saturation
                (([(pipelineAgg raw D).1, (pipelineAgg raw D).2] :
                  List (List ℚ)).flatten) cap1 cap2) := rfl
        rcases hchoice with hch | hch
        · -- chosen PE1: aggregate row 0 is positive at column j
          have hterm_mem : (if ((pipelineDecCE raw D).getD i []).getD j 0 = 1
                then (raw.getD i []).getD j 0 else 0)
              ∈ (raw.zip (pipelineDecCE raw D)).map
                (fun rd => if rd.2.getD j 0 = 1 then rd.1.getD j 0 else 0) :=
            List.mem_map_of_mem _ hpairmem
          rw [hch, if_pos rfl, hrawgetD, hrowj] at hterm_mem
          have haggpos : 0 < (pipelineAgg raw D).1.getD j 0 := by
            rw [pipelineAgg, hagg.1]
            exact sum_pos_of_mem _ v hterm_mem hv hterm_nonneg
          have hposgw : (((pipelineDecCE raw D).getD i []).getD j 0 - 1) * D + j < D + D := by
            rw [hch]
            omega
          have hflatval : ([(pipelineAgg raw D).1, (pipelineAgg raw D).2] :
              List (List ℚ)).flatten.getD
                ((((pipelineDecCE raw D).getD i []).getD j 0 - 1) * D + j) 0
              = (pipelineAgg raw D).1.getD j 0 := by
            rw [hch, hflat2]
            simp only [Nat.sub_self, Nat.zero_mul, Nat.zero_add]
            exact getD_append_left _ _ j 0 (by rw [hagglen2.1]; exact hjD)
          have hgwcell : ((pipelineDecGW raw D cap1 cap2).getD
                (((pipelineDecCE raw D).getD i []).getD j 0 - 1) []).getD j 0
              = (ottimizzazione_scelta_GW cap1 cap2
                  [(pipelineAgg raw D).1, (pipelineAgg raw D).2]).getD
                ((((pipelineDecCE raw D).getD i []).getD j 0 - 1) * D + j) 0 :=
            reshape2_getD 2 D _ _ j 0 (by rw [hch]; omega) hjD
          show _ = 1 ∨ _ = 2
          rw [hgwcell, hGWeq,
            mapScelta_getD _ _ _ (by rw [solve_minimax_saturation_length]) (by
              rw [hflatlen]; exact hposgw)]
          rw [if_pos (by rw [hflatval]; exact ne_of_gt haggpos)]
          by_cases hb : (solve_minimax_saturation
              (([(pipelineAgg raw D).1, (pipelineAgg raw D).2] :
                List (List ℚ)).flatten) cap1 cap2).getD
              ((((pipelineDecCE raw D).getD i []).getD j 0 - 1) * D + j) false = true
          · right; rw [if_pos hb]
          · left; rw [if_neg hb]
        · -- chosen PE2: aggregate row 1 is positive at column j
          have hterm_mem : (if ((pipelineDecCE raw D).getD i []).getD j 0 = 2
                then (raw.getD i []).getD j 0 else 0)
              ∈ (raw.zip (pipelineDecCE raw D)).map
                (fun rd => if rd.2.getD j 0 = 2 then rd.1.getD j 0 else 0) :=
            List.mem_map_of_mem _ hpairmem
          rw [hch, if_pos rfl, hrawgetD, hrowj] at hterm_mem
          have haggpos : 0 < (pipelineAgg raw D).2.getD j 0 := by
            rw [pipelineAgg, hagg.2]
            exact sum_pos_of_mem _ v hterm_mem hv hterm_nonneg2
          have hposgw : (((pipelineDecCE raw D).getD i []).getD j 0 - 1) * D + j < D + D := by
            rw [hch]
            omega
          have hflatval : ([(pipelineAgg raw D).1, (pipelineAgg raw D).2] :
              List (List ℚ)).flatten.getD
                ((((pipelineDecCE raw D).getD i []).getD j 0 - 1) * D + j) 0
              = (pipelineAgg raw D).2.getD j 0 := by
            rw [hch, hflat2]
            have harith : (2 - 1) * D + j = (pipelineAgg raw D).1.length + j := by
              rw [hagglen2.1]; omega
            rw [harith, getD_append_shift]
          have hgwcell : ((pipelineDecGW raw D cap1 cap2).getD
                (((pipelineDecCE raw D).getD i []).getD j 0 - 1) []).getD j 0
              = (ottimizzazione_scelta_GW cap1 cap2
                  [(pipelineAgg raw D).1, (pipelineAgg raw D).2]).getD
                ((((pipelineDecCE raw D).getD i []).getD j 0 - 1) * D + j) 0 :=
            reshape2_getD 2 D _ _ j 0 (by rw [hch]; omega) hjD
          show _ = 1 ∨ _ = 2
          rw [hgwcell, hGWeq,
            mapScelta_getD _ _ _ (by rw [solve_minimax_saturation_length]) (by
              rw [hflatlen]; exact hposgw)]
          rw [if_pos (by rw [hflatval]; exact ne_of_gt haggpos)]
          by_cases hb : (solve_minimax_saturation
              (([(pipelineAgg raw D).1, (pipelineAgg raw D).2] :
                List (List ℚ)).flatten) cap1 cap2).getD
              ((((pipelineDecCE raw D).getD i []).getD j 0 - 1) * D + j) false = true
          · right; rw [if_pos hb]
          · left; rw [if_neg hb]
    · rw [if_neg hv] at hrcell
      cases hrcell

theorem final_export_invariants_witness :
    (finalPaths [[(100:ℚ)]] 1 10 10).map (fun r => (r.src, r.dst))
      = (([[(100:ℚ)]] : List (List ℚ)).mapIdx (fun i row =>
          (row.mapIdx (fun j v => if 0 < v then [(i, j)] else [])).flatten)).flatten :=
  (final_export_invariants [[100]] 1 10 10 (by decide)
    (by norm_num [List.forall_mem_cons])).1
